import Mathlib

/-!
Verification of the core logic of the JSON tree visualizer
(src/src/components/JSONTreeVisualizer.tsx).

The embedding models:
- `createTree` (TreeBuilder): the pre-order traversal producing node and
  edge lists (`traverse` closure in the source, with its `nodeId` counter
  made an explicit argument and its two accumulator arrays made return
  values);
- `layoutNodes` (LayeredLayout): root detection, the recursive `findLevel`
  walk over the edge list (its unbounded JS recursion is modelled with a
  fuel argument that the theorems show is never exhausted on TreeBuilder
  output), and the per-level position formula;
- `handleSearch` (PathMatcher) and `handleVisualize`
  (InteractionController): modelled as transformers of an explicit
  application-state record; the JSON.parse platform builtin is modelled as
  a parameter carrying either the parsed value or the parser diagnostic.

JS specifics modelled explicitly: string interpolation of the numeric
counter is decimal rendering (`natStr`), `String.prototype.trim` removes
the ECMAScript whitespace set (`jsTrim`), and React state updates are
modelled as functional record updates. JSON numbers are modelled as
integers; no claim depends on the numeric payload. In-place mutation of
`node.position` is modelled by rebuilding the node list. The `if (parent)`
truthiness test coincides with matching on the optional parent, since the
only parent ids passed are nonempty generated node ids.
-/

set_option autoImplicit false

namespace JViz

/-- Primitive JSON payloads (string, number, boolean, null). -/
inductive JPrim where
  | jstr (s : String)
  | jnum (n : Int)
  | jbool (b : Bool)
  | jnull
  deriving DecidableEq, Repr

/-- A parsed JSON value: object (ordered key/value list), array, or
primitive. -/
inductive JsonValue where
  | obj (entries : List (String × JsonValue))
  | arr (elems : List JsonValue)
  | prim (p : JPrim)
  deriving Repr

/-- The classification stored in `NodeData.type` by `createTree`. -/
inductive NodeType where
  | object
  | array
  | primitive
  deriving DecidableEq, Repr

/-- The `data` payload of a produced node (theme flag included; the
presentational `sourcePosition` and `targetPosition` constants are
omitted). -/
structure NodeData where
  label : String
  value : Option JPrim
  type : NodeType
  path : String
  isDark : Bool
  isHighlighted : Bool
  deriving DecidableEq, Repr

/-- A produced React Flow node. The `parent` field is a ghost field
recording the `parent` argument the source passes to `traverse` when the
node is created; it lets the theorems speak about the parent of a node. -/
structure RFNode where
  id : String
  data : NodeData
  position : Rat × Rat
  parent : Option String
  deriving DecidableEq, Repr

/-- A produced React Flow edge. -/
structure RFEdge where
  id : String
  source : String
  target : String
  deriving DecidableEq, Repr

/-- Decimal digit list of `n`, with explicit fuel (first argument); with
fuel at least `n + 1` this is the standard decimal representation. -/
def natDigitsAux : Nat → Nat → List Char
  | 0, _ => []
  | fuel+1, n =>
      if n < 10 then [Nat.digitChar n]
      else natDigitsAux fuel (n / 10) ++ [Nat.digitChar (n % 10)]

/-- Decimal digit list of `n`. -/
def natDigits (n : Nat) : List Char := natDigitsAux (n + 1) n

/-- Decimal string of `n`, as JS template interpolation renders a
nonnegative integer. -/
def natStr (n : Nat) : String := ⟨natDigits n⟩

/-- The id the source assigns to the node created when the counter is `c`:
the template string `node-${nodeId}`. -/
def mkId (c : Nat) : String := "node-" ++ natStr c

/-- Value classification used by `traverse` (Array.isArray, then the
object/null test, else primitive). -/
def typeOf : JsonValue → NodeType
  | .obj _ => .object
  | .arr _ => .array
  | .prim _ => .primitive

/-- The node record built by one `traverse` call. -/
def mkNode (isDark : Bool) (c : Nat) (v : JsonValue) (label path : String)
    (parent : Option String) : RFNode :=
  { id := mkId c
    data :=
      { label := label
        value := match v with | .prim p => some p | _ => none
        type := typeOf v
        path := path
        isDark := isDark
        isHighlighted := false }
    position := (0, 0)
    parent := parent }

/-- The edge pushed for a node when its parent is present: the template
string `edge-${parent}-${id}` with the given source and target. -/
def parentEdges (parent : Option String) (id : String) : List RFEdge :=
  match parent with
  | some p => [{ id := "edge-" ++ p ++ "-" ++ id, source := p, target := id }]
  | none => []

mutual
/-- The `traverse` closure of `createTree`: visits `v`, allocating id
`node-${c}`, pushing the node, pushing an edge from the parent when
present, then recursing into object entries or array elements. Returns the
node list, the edge list and the final counter. -/
def traverse (isDark : Bool) (v : JsonValue) (parent : Option String)
    (label : String) (path : String) (c : Nat) :
    List RFNode × List RFEdge × Nat :=
  let id := mkId c
  let node := mkNode isDark c v label path parent
  match v with
  | .obj es =>
      let rest := traverseEntries isDark es id path (c + 1)
      (node :: rest.1, parentEdges parent id ++ rest.2.1, rest.2.2)
  | .arr vs =>
      let rest := traverseElems isDark vs id path 0 (c + 1)
      (node :: rest.1, parentEdges parent id ++ rest.2.1, rest.2.2)
  | .prim _ => ([node], parentEdges parent id, c + 1)

/-- Object branch of `traverse`: `Object.entries(value).forEach`, child
label the key and child path `currentPath + "." + key`. -/
def traverseEntries (isDark : Bool) (es : List (String × JsonValue))
    (pid : String) (ppath : String) (c : Nat) :
    List RFNode × List RFEdge × Nat :=
  match es with
  | [] => ([], [], c)
  | (k, v) :: rest =>
      let first := traverse isDark v (some pid) k (ppath ++ "." ++ k) c
      let more := traverseEntries isDark rest pid ppath first.2.2
      (first.1 ++ more.1, first.2.1 ++ more.2.1, more.2.2)

/-- Array branch of `traverse`: `value.forEach`, child label `[idx]` and
child path `currentPath + "[" + idx + "]"`. -/
def traverseElems (isDark : Bool) (vs : List JsonValue) (pid : String)
    (ppath : String) (idx : Nat) (c : Nat) :
    List RFNode × List RFEdge × Nat :=
  match vs with
  | [] => ([], [], c)
  | v :: rest =>
      let first := traverse isDark v (some pid) ("[" ++ natStr idx ++ "]")
        (ppath ++ "[" ++ natStr idx ++ "]") c
      let more := traverseElems isDark rest pid ppath (idx + 1) first.2.2
      (first.1 ++ more.1, first.2.1 ++ more.2.1, more.2.2)
end

/-- `createTree(obj)` as called by `handleVisualize`: parent `null`, key
`root`, path `$`, counter starting at 0. -/
def createTree (isDark : Bool) (obj : JsonValue) : List RFNode × List RFEdge :=
  let r := traverse isDark obj none "root" "$" 0
  (r.1, r.2.1)

/-! Spec-side counting functions. -/

mutual
/-- Number of nodes `traverse` creates for `v`. -/
def sizeJ : JsonValue → Nat
  | .obj es => 1 + sizeEntries es
  | .arr vs => 1 + sizeElems vs
  | .prim _ => 1

/-- Number of nodes created for a list of object entries. -/
def sizeEntries : List (String × JsonValue) → Nat
  | [] => 0
  | (_, v) :: rest => sizeJ v + sizeEntries rest

/-- Number of nodes created for a list of array elements. -/
def sizeElems : List JsonValue → Nat
  | [] => 0
  | v :: rest => sizeJ v + sizeElems rest
end

mutual
/-- Total number of object entries and array elements reachable in `v`,
counted recursively (the count the node-count claim refers to). -/
def entryCount : JsonValue → Nat
  | .obj es => ecEntries es
  | .arr vs => ecElems vs
  | .prim _ => 0

/-- Entries of one object, each counted with its own reachable entries. -/
def ecEntries : List (String × JsonValue) → Nat
  | [] => 0
  | (_, v) :: rest => 1 + entryCount v + ecEntries rest

/-- Elements of one array, each counted with its own reachable entries. -/
def ecElems : List JsonValue → Nat
  | [] => 0
  | v :: rest => 1 + entryCount v + ecElems rest
end

/-! JS string helpers used by the search logic. -/

/-- The ECMAScript WhiteSpace and LineTerminator code points removed by
`String.prototype.trim`. -/
def jsWsChars : List Char :=
  ['\x09', '\x0a', '\x0b', '\x0c', '\x0d', ' ', '\u00a0', '\u1680',
   '\u2000', '\u2001', '\u2002', '\u2003', '\u2004', '\u2005', '\u2006',
   '\u2007', '\u2008', '\u2009', '\u200a', '\u2028', '\u2029', '\u202f',
   '\u205f', '\u3000', '\ufeff']

/-- Whether `c` is ECMAScript whitespace. -/
def isJsWs (c : Char) : Bool := jsWsChars.contains c

/-- `String.prototype.trim`: drop ECMAScript whitespace from both ends. -/
def jsTrim (s : String) : String :=
  ⟨((s.data.dropWhile isJsWs).reverse.dropWhile isJsWs).reverse⟩

/-- `s.startsWith("$")`: the first character is a dollar sign. -/
def startsDollar (s : String) : Bool :=
  match s.data with
  | [] => false
  | ch :: _ => ch == '$'

/-- Search-string normalization from `handleSearch`: trim, then use as-is
when the result starts with `$`, else prepend `$.`. -/
def normalizePath (raw : String) : String :=
  if startsDollar (jsTrim raw) then jsTrim raw else "$." ++ jsTrim raw

/-- The PathMatcher core of `handleSearch`: normalize the raw search
string, find the first node whose `path` equals it, and return its id. -/
def pathMatcherId (raw : String) (nodes : List RFNode) : Option String :=
  (nodes.find? (fun n => n.data.path == normalizePath raw)).map (fun n => n.id)

/-! The layered layout (`layoutNodes` and its `findLevel` recursion). -/

/-- `levels[level].push(nodeId)`, creating the level list if absent.
Levels are modelled as a list indexed by level number, which matches the
ascending integer-key enumeration order of `Object.entries(levels)`. -/
def addAt : List (List String) → Nat → String → List (List String)
  | [], 0, id => [[id]]
  | [], d+1, id => [] :: addAt [] d id
  | l :: ls, 0, id => (l ++ [id]) :: ls
  | l :: ls, d+1, id => l :: addAt ls d id

/-- The recursive `findLevel` walk: skip when visited, otherwise record the
node at its level and recurse along every outgoing edge with level + 1.
The `visited` set is a list used only through membership; the fuel makes
the JS recursion structural and is shown never to run out on TreeBuilder
output. -/
def findLevel (edges : List RFEdge) :
    Nat → List String → List (List String) → String → Nat →
    List String × List (List String)
  | 0, vis, levels, _, _ => (vis, levels)
  | fuel+1, vis, levels, nodeId, level =>
      if nodeId ∈ vis then (vis, levels)
      else
        edges.foldl
          (fun st e =>
            if e.source == nodeId then
              findLevel edges fuel st.1 st.2 e.target (level + 1)
            else st)
          (nodeId :: vis, addAt levels level nodeId)

/-- Index of the first occurrence of `id` in one level list. -/
def idxOf : List String → String → Option Nat
  | [], _ => none
  | x :: xs, id => if x = id then some 0 else (idxOf xs id).map (· + 1)

/-- First occurrence of `id` across the level lists, returning its level,
its index within the level and the level size. -/
def posOfAux (id : String) : List (List String) → Nat → Option (Nat × Nat × Nat)
  | [], _ => none
  | l :: ls, d =>
      match idxOf l id with
      | some i => some (d, i, l.length)
      | none => posOfAux id ls (d + 1)

/-- Position data of `id` in the computed levels. -/
def posOf (levels : List (List String)) (id : String) : Option (Nat × Nat × Nat) :=
  posOfAux id levels 0

/-- Apply the layout position formula for a node found in the levels:
`x = (index - levelSize / 2) * 200`, `y = level * 150`; a node in no level
keeps its position. -/
def applyPos (levels : List (List String)) (n : RFNode) : RFNode :=
  match posOf levels n.id with
  | some (lev, idx, len) =>
      { n with position := (((idx : Rat) - (len : Rat) / 2) * 200, (lev : Rat) * 150) }
  | none => n

/-- `layoutNodes`: find the first node with no incoming edge, run
`findLevel` from it, and stamp positions level by level. The in-place
mutation of the source is modelled by rebuilding the node list; the two
agree because a node id occurs at most once across the levels. -/
def layoutNodes (nodes : List RFNode) (edges : List RFEdge) : List RFNode :=
  let root? := nodes.find? (fun n => !(edges.any (fun e => e.target == n.id)))
  let levels :=
    match root? with
    | some r => (findLevel edges nodes.length [] [] r.id 0).2
    | none => []
  nodes.map (applyPos levels)

/-! The interaction-controller state and the visualize/search handlers. -/

/-- The component state touched by the handlers: input text, search text,
node and edge lists, error message, search-result message, theme flag. -/
structure AppState where
  jsonInput : String
  searchPath : String
  nodes : List RFNode
  edges : List RFEdge
  error : String
  searchResult : String
  isDark : Bool
  deriving DecidableEq, Repr

/-- Reset the highlight flag of a node. -/
def clearHL (n : RFNode) : RFNode :=
  { n with data := { n.data with isHighlighted := false } }

/-- `handleVisualize`, with the `JSON.parse` platform builtin modelled as
the `parsed` argument: on success the error and search-result messages are
cleared and the freshly built and laid-out tree replaces the state; on
parse failure the error message wraps the parser diagnostic and the node
and edge lists are emptied. -/
def handleVisualize (parsed : Except String JsonValue) (st : AppState) : AppState :=
  match parsed with
  | .ok v =>
      let t := createTree st.isDark v
      { st with
        error := ""
        searchResult := ""
        nodes := layoutNodes t.1 t.2
        edges := t.2 }
  | .error msg =>
      { st with
        error := "Invalid JSON: " ++ msg
        nodes := []
        edges := [] }

/-- `handleSearch`: an all-whitespace search clears highlights and the
result message; otherwise the normalized path is matched exactly against
node paths, highlighting the match or reporting that none exists. The
viewport re-centering command sent to the renderer is outside the state
modelled here. -/
def handleSearch (st : AppState) : AppState :=
  if jsTrim st.searchPath = "" then
    { st with searchResult := "", nodes := st.nodes.map clearHL }
  else
    let normalizedPath := normalizePath st.searchPath
    match st.nodes.find? (fun n => n.data.path == normalizedPath) with
    | some matchedNode =>
        { st with
          nodes := st.nodes.map (fun n =>
            { n with data := { n.data with isHighlighted := n.id == matchedNode.id } })
          searchResult := "Match found!" }
    | none =>
        { st with
          nodes := st.nodes.map clearHL
          searchResult := "No match found" }

/-- Erase the theme flag of a node (used to compare builds across theme
settings). -/
def stripTheme (n : RFNode) : RFNode :=
  { n with data := { n.data with isDark := false } }

mutual
/-- Height of the tree of nodes created for `v` (1 for a leaf). -/
def heightJ : JsonValue → Nat
  | .obj es => 1 + heightEntries es
  | .arr vs => 1 + heightElems vs
  | .prim _ => 1

/-- Maximum height among entry values (0 for none). -/
def heightEntries : List (String × JsonValue) → Nat
  | [] => 0
  | (_, v) :: rest => max (heightJ v) (heightEntries rest)

/-- Maximum height among elements (0 for none). -/
def heightElems : List JsonValue → Nat
  | [] => 0
  | v :: rest => max (heightJ v) (heightElems rest)
end

/-! Spec-side descriptions of the produced paths: a path is the root
anchor `$` followed by encoded segments, one per ancestor step. -/

/-- One path segment: an object key or an array index. -/
inductive Seg where
  | key (k : String)
  | idx (i : Nat)
  deriving DecidableEq, Repr

/-- Character encoding of one segment, exactly as `traverse` appends it:
`.key` for object keys, `[idx]` for array indices. -/
def Seg.enc : Seg → List Char
  | .key k => '.' :: k.data
  | .idx i => '[' :: (natDigits i ++ [']'])

/-- Concatenated encoding of a segment list. -/
def encSegs (l : List Seg) : List Char := (l.map Seg.enc).flatten

mutual
/-- Pre-order list of the segment lists of all nodes of the subtree for
`v` (the root of the subtree contributing `[]`). -/
def segListsOf : JsonValue → List (List Seg)
  | .obj es => [] :: segListsEntries es
  | .arr vs => [] :: segListsElems vs 0
  | .prim _ => [[]]

/-- Segment lists contributed by object entries, each child prefixing its
key segment. -/
def segListsEntries : List (String × JsonValue) → List (List Seg)
  | [] => []
  | (k, v) :: rest => (segListsOf v).map (fun s => Seg.key k :: s) ++ segListsEntries rest

/-- Segment lists contributed by array elements from index `i` on, each
child prefixing its index segment. -/
def segListsElems : List JsonValue → Nat → List (List Seg)
  | [], _ => []
  | v :: rest, i => (segListsOf v).map (fun s => Seg.idx i :: s) ++ segListsElems rest (i + 1)
end

/-- Whether a key avoids the two characters `traverse` uses as segment
separators. -/
def keyCharsOK (k : String) : Bool :=
  k.data.all (fun ch => !(ch == '.' || ch == '['))

/-- Whether a key does not end in ECMAScript whitespace (an empty key
qualifies). -/
def keyEndOK (k : String) : Bool :=
  match k.data.getLast? with
  | none => true
  | some ch => !isJsWs ch

mutual
/-- Key discipline under which the produced paths are pairwise distinct:
within each object the keys are distinct (as JSON.parse guarantees) and no
key contains `.` or `[`. -/
def buildSafe : JsonValue → Bool
  | .obj es => decide ((es.map Prod.fst).Nodup) && buildSafeEntries es
  | .arr vs => buildSafeElems vs
  | .prim _ => true

/-- `buildSafe` over object entries. -/
def buildSafeEntries : List (String × JsonValue) → Bool
  | [] => true
  | (k, v) :: rest => keyCharsOK k && buildSafe v && buildSafeEntries rest

/-- `buildSafe` over array elements. -/
def buildSafeElems : List JsonValue → Bool
  | [] => true
  | v :: rest => buildSafe v && buildSafeElems rest
end

mutual
/-- Key discipline under which trimming a produced path leaves it intact:
no key ends in ECMAScript whitespace. -/
def endSafe : JsonValue → Bool
  | .obj es => endSafeEntries es
  | .arr vs => endSafeElems vs
  | .prim _ => true

/-- `endSafe` over object entries. -/
def endSafeEntries : List (String × JsonValue) → Bool
  | [] => true
  | (k, v) :: rest => keyEndOK k && endSafe v && endSafeEntries rest

/-- `endSafe` over array elements. -/
def endSafeElems : List JsonValue → Bool
  | [] => true
  | v :: rest => endSafe v && endSafeElems rest
end

/-! Spec-side description of the level structure of the produced tree. -/

/-- Pointwise concatenation of two level structures, keeping the longer
tail. -/
def joinLevels : List (List String) → List (List String) → List (List String)
  | [], m => m
  | l :: ls, [] => l :: ls
  | l :: ls, m :: ms => (l ++ m) :: joinLevels ls ms

/-- Merge a level structure into `levels` starting at depth `d`. -/
def mergeAt (levels : List (List String)) (d : Nat) (L : List (List String)) :
    List (List String) :=
  joinLevels levels (List.replicate d [] ++ L)

mutual
/-- Level structure of the subtree built for `v` when its root gets
counter `c`: index `d` lists the ids of the subtree nodes at depth `d`
below the subtree root, in left-to-right (pre-order) order. -/
def levelsOf : JsonValue → Nat → List (List String)
  | .obj es, c => [mkId c] :: levelsOfEntries es (c + 1)
  | .arr vs, c => [mkId c] :: levelsOfElems vs (c + 1)
  | .prim _, c => [[mkId c]]

/-- Level structures of entry subtrees, merged pointwise left to right. -/
def levelsOfEntries : List (String × JsonValue) → Nat → List (List String)
  | [], _ => []
  | (_, v) :: rest, c => joinLevels (levelsOf v c) (levelsOfEntries rest (c + sizeJ v))

/-- Level structures of element subtrees, merged pointwise left to
right. -/
def levelsOfElems : List JsonValue → Nat → List (List String)
  | [], _ => []
  | v :: rest, c => joinLevels (levelsOf v c) (levelsOfElems rest (c + sizeJ v))
end

mutual
/-- Pre-order list of node depths of the subtree built for `v` (subtree
root at depth 0). -/
def depthList : JsonValue → List Nat
  | .obj es => 0 :: (depthListEntries es).map (· + 1)
  | .arr vs => 0 :: (depthListElems vs).map (· + 1)
  | .prim _ => [0]

/-- Depth lists of entry subtrees, concatenated. -/
def depthListEntries : List (String × JsonValue) → List Nat
  | [] => []
  | (_, v) :: rest => depthList v ++ depthListEntries rest

/-- Depth lists of element subtrees, concatenated. -/
def depthListElems : List JsonValue → List Nat
  | [] => []
  | v :: rest => depthList v ++ depthListElems rest
end

/-- The ids of the nodes of the subtree for `v` (root counter `c`) whose
depth below the subtree root is `lev`, in pre-order: the breadth-first
view of level `lev`. -/
def levelIdsAt (v : JsonValue) (c : Nat) (lev : Nat) : List String :=
  (((List.range' c (sizeJ v)).map mkId).zip (depthList v)).filterMap
    (fun p => if p.2 = lev then some p.1 else none)

/-- Counters given to the immediate children of an object node when its
entries start at counter `c`. -/
def childCountersEntries : List (String × JsonValue) → Nat → List Nat
  | [], _ => []
  | (_, v) :: rest, c => c :: childCountersEntries rest (c + sizeJ v)

/-- Counters given to the immediate children of an array node when its
elements start at counter `c`. -/
def childCountersElems : List JsonValue → Nat → List Nat
  | [], _ => []
  | v :: rest, c => c :: childCountersElems rest (c + sizeJ v)

/-- Whether one segment obeys the key discipline (`keyCharsOK` for keys;
indices always qualify). -/
def Seg.OKb : Seg → Bool
  | .key k => keyCharsOK k
  | .idx _ => true

/-- Whether every segment of a list obeys the key discipline. -/
def segsOKb (l : List Seg) : Bool := l.all Seg.OKb

/-- The ten decimal digit characters. -/
def digitCharsL : List Char :=
  ['0', '1', '2', '3', '4', '5', '6', '7', '8', '9']

/-- Numeric value of a decimal digit list (used to invert `natDigits`). -/
def digitsVal (a : Nat) (l : List Char) : Nat :=
  l.foldl (fun acc ch => acc * 10 + (ch.toNat - 48)) a

/-! # Theorems -/

/-! ## Decimal rendering: `natStr` and `mkId` are injective. -/

theorem natDigitsAux_eq (n : Nat) : ∀ fuel, n < fuel → natDigitsAux fuel n = natDigits n := by
  induction n using Nat.strong_induction_on with
  | _ n ih =>
    intro fuel hf
    match fuel, hf with
    | f + 1, _ =>
      by_cases h10 : n < 10
      · simp [natDigitsAux, natDigits, h10]
      · have hpos : 0 < n := by omega
        have hdiv : n / 10 < n := Nat.div_lt_self hpos (by norm_num)
        rw [natDigits] at *
        rw [show (n + 1) = n + 1 from rfl]
        rw [natDigitsAux, natDigitsAux]
        simp only [h10, if_false]
        have h1 : natDigitsAux f (n / 10) = natDigitsAux (n / 10 + 1) (n / 10) :=
          ih (n / 10) hdiv f (by omega)
        have h2 : natDigitsAux n (n / 10) = natDigitsAux (n / 10 + 1) (n / 10) :=
          ih (n / 10) hdiv n (by omega)
        rw [h1, h2]

theorem natDigits_lt10 (n : Nat) (h : n < 10) : natDigits n = [Nat.digitChar n] := by
  simp [natDigits, natDigitsAux, h]

theorem natDigits_ge10 (n : Nat) (h : 10 ≤ n) :
    natDigits n = natDigits (n / 10) ++ [Nat.digitChar (n % 10)] := by
  have hpos : 0 < n := by omega
  have hdiv : n / 10 < n := Nat.div_lt_self hpos (by norm_num)
  rw [natDigits, natDigitsAux]
  simp only [show ¬(n < 10) from by omega, if_false]
  rw [natDigitsAux_eq (n / 10) n (by omega)]

theorem natDigits_ne_nil (n : Nat) : natDigits n ≠ [] := by
  by_cases h : n < 10
  · rw [natDigits_lt10 n h]; simp
  · rw [natDigits_ge10 n (by omega)]; simp

theorem digitChar_mem (d : Nat) (h : d < 10) : Nat.digitChar d ∈ digitCharsL := by
  interval_cases d <;> decide

theorem natDigits_mem (n : Nat) : ∀ ch ∈ natDigits n, ch ∈ digitCharsL := by
  induction n using Nat.strong_induction_on with
  | _ n ih =>
    by_cases h : n < 10
    · rw [natDigits_lt10 n h]
      intro ch hch
      simp only [List.mem_singleton] at hch
      exact hch ▸ digitChar_mem n h
    · rw [natDigits_ge10 n (by omega)]
      intro ch hch
      rcases List.mem_append.mp hch with hl | hr
      · exact ih (n / 10) (Nat.div_lt_self (by omega) (by norm_num)) ch hl
      · simp only [List.mem_singleton] at hr
        exact hr ▸ digitChar_mem (n % 10) (Nat.mod_lt n (by norm_num))

theorem digitChar_val (d : Nat) (h : d < 10) : (Nat.digitChar d).toNat - 48 = d := by
  interval_cases d <;> decide

theorem digitsVal_append (a : Nat) (l₁ l₂ : List Char) :
    digitsVal a (l₁ ++ l₂) = digitsVal (digitsVal a l₁) l₂ := by
  simp [digitsVal, List.foldl_append]

theorem digitsVal_natDigits (n : Nat) :
    ∀ a, digitsVal a (natDigits n) = a * 10 ^ (natDigits n).length + n := by
  induction n using Nat.strong_induction_on with
  | _ n ih =>
    intro a
    by_cases h : n < 10
    · rw [natDigits_lt10 n h]
      simp [digitsVal, digitChar_val n h]
    · rw [natDigits_ge10 n (by omega)]
      rw [digitsVal_append]
      have hdiv : n / 10 < n := Nat.div_lt_self (by omega) (by norm_num)
      rw [ih (n / 10) hdiv a]
      simp only [digitsVal, List.foldl_cons, List.foldl_nil, List.length_append,
        List.length_singleton]
      rw [digitChar_val (n % 10) (Nat.mod_lt n (by norm_num))]
      rw [pow_succ]
      have := Nat.div_add_mod n 10
      ring_nf
      omega

theorem natDigits_inj (m n : Nat) (h : natDigits m = natDigits n) : m = n := by
  have hm := digitsVal_natDigits m 0
  have hn := digitsVal_natDigits n 0
  rw [h] at hm
  simp only [zero_mul] at hm hn
  omega

theorem natStr_inj (m n : Nat) (h : natStr m = natStr n) : m = n := by
  apply natDigits_inj
  have : (natStr m).data = (natStr n).data := by rw [h]
  simpa [natStr] using this

theorem mkId_inj (m n : Nat) (h : mkId m = mkId n) : m = n := by
  apply natStr_inj
  have hd : (mkId m).data = (mkId n).data := by rw [h]
  simp only [mkId, String.data_append] at hd
  apply String.ext
  exact List.append_cancel_left hd

/-! ## Structure of the traversal: counter, ids, lengths. -/

mutual
theorem counter_traverse (d : Bool) (v : JsonValue) (p : Option String)
    (l path : String) (c : Nat) :
    (traverse d v p l path c).2.2 = c + sizeJ v := by
  match v with
  | .obj es =>
      rw [traverse, sizeJ]
      simp only [counter_entries d es (mkId c) path (c + 1)]
      omega
  | .arr vs =>
      rw [traverse, sizeJ]
      simp only [counter_elems d vs (mkId c) path 0 (c + 1)]
      omega
  | .prim q => rw [traverse, sizeJ]

theorem counter_entries (d : Bool) (es : List (String × JsonValue))
    (pid ppath : String) (c : Nat) :
    (traverseEntries d es pid ppath c).2.2 = c + sizeEntries es := by
  match es with
  | [] => rw [traverseEntries, sizeEntries]; rfl
  | (k, v) :: rest =>
      rw [traverseEntries, sizeEntries]
      simp only [counter_entries d rest pid ppath _,
        counter_traverse d v (some pid) k (ppath ++ "." ++ k) c]
      omega

theorem counter_elems (d : Bool) (vs : List JsonValue) (pid ppath : String)
    (idx c : Nat) :
    (traverseElems d vs pid ppath idx c).2.2 = c + sizeElems vs := by
  match vs with
  | [] => rw [traverseElems, sizeElems]; rfl
  | v :: rest =>
      rw [traverseElems, sizeElems]
      simp only [counter_elems d rest pid ppath (idx + 1) _,
        counter_traverse d v (some pid) ("[" ++ natStr idx ++ "]")
          (ppath ++ "[" ++ natStr idx ++ "]") c]
      omega
end

mutual
theorem ids_traverse (d : Bool) (v : JsonValue) (p : Option String)
    (l path : String) (c : Nat) :
    (traverse d v p l path c).1.map (fun n => n.id) =
      (List.range' c (sizeJ v)).map mkId := by
  match v with
  | .obj es =>
      rw [traverse, sizeJ]
      simp only [List.map_cons, ids_entries d es (mkId c) path (c + 1)]
      rw [Nat.add_comm 1 (sizeEntries es), List.range'_succ]
      simp [mkNode]
  | .arr vs =>
      rw [traverse, sizeJ]
      simp only [List.map_cons, ids_elems d vs (mkId c) path 0 (c + 1)]
      rw [Nat.add_comm 1 (sizeElems vs), List.range'_succ]
      simp [mkNode]
  | .prim q =>
      rw [traverse, sizeJ]
      simp [mkNode, List.range'_one]

theorem ids_entries (d : Bool) (es : List (String × JsonValue))
    (pid ppath : String) (c : Nat) :
    (traverseEntries d es pid ppath c).1.map (fun n => n.id) =
      (List.range' c (sizeEntries es)).map mkId := by
  match es with
  | [] => rw [traverseEntries, sizeEntries]; simp
  | (k, v) :: rest =>
      rw [traverseEntries, sizeEntries]
      simp only [List.map_append,
        ids_traverse d v (some pid) k (ppath ++ "." ++ k) c,
        counter_traverse d v (some pid) k (ppath ++ "." ++ k) c,
        ids_entries d rest pid ppath (c + sizeJ v)]
      rw [← List.map_append, List.range'_append_1, Nat.add_comm]

theorem ids_elems (d : Bool) (vs : List JsonValue) (pid ppath : String)
    (idx c : Nat) :
    (traverseElems d vs pid ppath idx c).1.map (fun n => n.id) =
      (List.range' c (sizeElems vs)).map mkId := by
  match vs with
  | [] => rw [traverseElems, sizeElems]; simp
  | v :: rest =>
      rw [traverseElems, sizeElems]
      simp only [List.map_append,
        ids_traverse d v (some pid) ("[" ++ natStr idx ++ "]")
          (ppath ++ "[" ++ natStr idx ++ "]") c,
        counter_traverse d v (some pid) ("[" ++ natStr idx ++ "]")
          (ppath ++ "[" ++ natStr idx ++ "]") c,
        ids_elems d rest pid ppath (idx + 1) (c + sizeJ v)]
      rw [← List.map_append, List.range'_append_1, Nat.add_comm]
end

theorem length_traverse (d : Bool) (v : JsonValue) (p : Option String)
    (l path : String) (c : Nat) :
    (traverse d v p l path c).1.length = sizeJ v := by
  have h := ids_traverse d v p l path c
  have := congrArg List.length h
  simpa using this

theorem ids_nodup (d : Bool) (v : JsonValue) (p : Option String)
    (l path : String) (c : Nat) :
    ((traverse d v p l path c).1.map (fun n => n.id)).Nodup := by
  rw [ids_traverse]
  exact (List.nodup_range' c (sizeJ v)).map_on
    (fun a _ b _ h => mkId_inj a b h)

theorem sizeJ_pos (v : JsonValue) : 1 ≤ sizeJ v := by
  cases v <;> simp [sizeJ]

/-! ## Structure of the traversal: edge targets, sources, parents. -/

mutual
theorem targets_traverse (d : Bool) (v : JsonValue) (q : String)
    (l path : String) (c : Nat) :
    (traverse d v (some q) l path c).2.1.map (fun e => e.target) =
      (List.range' c (sizeJ v)).map mkId := by
  match v with
  | .obj es =>
      rw [traverse, sizeJ]
      simp only [parentEdges, List.map_append, List.map_cons, List.map_nil,
        targets_entries d es (mkId c) path (c + 1)]
      rw [Nat.add_comm 1 (sizeEntries es), List.range'_succ]
      simp
  | .arr vs =>
      rw [traverse, sizeJ]
      simp only [parentEdges, List.map_append, List.map_cons, List.map_nil,
        targets_elems d vs (mkId c) path 0 (c + 1)]
      rw [Nat.add_comm 1 (sizeElems vs), List.range'_succ]
      simp
  | .prim p =>
      rw [traverse, sizeJ]
      simp [parentEdges, List.range'_one]

theorem targets_entries (d : Bool) (es : List (String × JsonValue))
    (pid ppath : String) (c : Nat) :
    (traverseEntries d es pid ppath c).2.1.map (fun e => e.target) =
      (List.range' c (sizeEntries es)).map mkId := by
  match es with
  | [] => rw [traverseEntries, sizeEntries]; simp
  | (k, v) :: rest =>
      rw [traverseEntries, sizeEntries]
      simp only [List.map_append,
        targets_traverse d v pid k (ppath ++ "." ++ k) c,
        counter_traverse d v (some pid) k (ppath ++ "." ++ k) c,
        targets_entries d rest pid ppath (c + sizeJ v)]
      rw [← List.map_append, List.range'_append_1, Nat.add_comm]

theorem targets_elems (d : Bool) (vs : List JsonValue) (pid ppath : String)
    (idx c : Nat) :
    (traverseElems d vs pid ppath idx c).2.1.map (fun e => e.target) =
      (List.range' c (sizeElems vs)).map mkId := by
  match vs with
  | [] => rw [traverseElems, sizeElems]; simp
  | v :: rest =>
      rw [traverseElems, sizeElems]
      simp only [List.map_append,
        targets_traverse d v pid ("[" ++ natStr idx ++ "]")
          (ppath ++ "[" ++ natStr idx ++ "]") c,
        counter_traverse d v (some pid) ("[" ++ natStr idx ++ "]")
          (ppath ++ "[" ++ natStr idx ++ "]") c,
        targets_elems d rest pid ppath (idx + 1) (c + sizeJ v)]
      rw [← List.map_append, List.range'_append_1, Nat.add_comm]
end

theorem targets_root (d : Bool) (v : JsonValue) (l path : String) (c : Nat) :
    (traverse d v none l path c).2.1.map (fun e => e.target) =
      ((List.range' c (sizeJ v)).map mkId).drop 1 := by
  match v with
  | .obj es =>
      rw [traverse, sizeJ]
      simp only [parentEdges, List.nil_append,
        targets_entries d es (mkId c) path (c + 1)]
      rw [Nat.add_comm 1 (sizeEntries es), List.range'_succ]
      simp
  | .arr vs =>
      rw [traverse, sizeJ]
      simp only [parentEdges, List.nil_append,
        targets_elems d vs (mkId c) path 0 (c + 1)]
      rw [Nat.add_comm 1 (sizeElems vs), List.range'_succ]
      simp
  | .prim p =>
      rw [traverse, sizeJ]
      simp [parentEdges, List.range'_one]

mutual
theorem sources_traverse (d : Bool) (v : JsonValue) (p : Option String)
    (l path : String) (c : Nat) :
    ∀ e ∈ (traverse d v p l path c).2.1,
      (∃ q, p = some q ∧ e.source = q) ∨
      ∃ i, c ≤ i ∧ i < c + sizeJ v ∧ e.source = mkId i := by
  match v with
  | .obj es =>
      intro e he
      rw [traverse] at he
      simp only at he
      rcases List.mem_append.mp he with hpe | hin
      · match p, hpe with
        | some q, hpe =>
            simp only [parentEdges, List.mem_singleton] at hpe
            exact Or.inl ⟨q, rfl, by rw [hpe]⟩
      · rcases sources_entries d es (mkId c) path (c + 1) e hin with h | ⟨i, h1, h2, h3⟩
        · exact Or.inr ⟨c, le_refl c, by have := sizeJ_pos (JsonValue.obj es); omega, h⟩
        · refine Or.inr ⟨i, by omega, ?_, h3⟩
          rw [sizeJ]; omega
  | .arr vs =>
      intro e he
      rw [traverse] at he
      simp only at he
      rcases List.mem_append.mp he with hpe | hin
      · match p, hpe with
        | some q, hpe =>
            simp only [parentEdges, List.mem_singleton] at hpe
            exact Or.inl ⟨q, rfl, by rw [hpe]⟩
      · rcases sources_elems d vs (mkId c) path 0 (c + 1) e hin with h | ⟨i, h1, h2, h3⟩
        · exact Or.inr ⟨c, le_refl c, by have := sizeJ_pos (JsonValue.arr vs); omega, h⟩
        · refine Or.inr ⟨i, by omega, ?_, h3⟩
          rw [sizeJ]; omega
  | .prim q =>
      intro e he
      rw [traverse] at he
      simp only at he
      match p, he with
      | some r, he =>
          simp only [parentEdges, List.mem_singleton] at he
          exact Or.inl ⟨r, rfl, by rw [he]⟩

theorem sources_entries (d : Bool) (es : List (String × JsonValue))
    (pid ppath : String) (c : Nat) :
    ∀ e ∈ (traverseEntries d es pid ppath c).2.1,
      e.source = pid ∨
      ∃ i, c ≤ i ∧ i < c + sizeEntries es ∧ e.source = mkId i := by
  match es with
  | [] => intro e he; rw [traverseEntries] at he; simp at he
  | (k, v) :: rest =>
      intro e he
      rw [traverseEntries] at he
      simp only at he
      rw [sizeEntries]
      rcases List.mem_append.mp he with hf | hm
      · rcases sources_traverse d v (some pid) k (ppath ++ "." ++ k) c e hf with
          ⟨q, hq, hs⟩ | ⟨i, h1, h2, h3⟩
        · exact Or.inl (by cases hq; exact hs)
        · exact Or.inr ⟨i, h1, by have := sizeJ_pos v; omega, h3⟩
      · rw [counter_traverse d v (some pid) k (ppath ++ "." ++ k) c] at hm
        rcases sources_entries d rest pid ppath (c + sizeJ v) e hm with h | ⟨i, h1, h2, h3⟩
        · exact Or.inl h
        · exact Or.inr ⟨i, by omega, by omega, h3⟩

theorem sources_elems (d : Bool) (vs : List JsonValue) (pid ppath : String)
    (idx c : Nat) :
    ∀ e ∈ (traverseElems d vs pid ppath idx c).2.1,
      e.source = pid ∨
      ∃ i, c ≤ i ∧ i < c + sizeElems vs ∧ e.source = mkId i := by
  match vs with
  | [] => intro e he; rw [traverseElems] at he; simp at he
  | v :: rest =>
      intro e he
      rw [traverseElems] at he
      simp only at he
      rw [sizeElems]
      rcases List.mem_append.mp he with hf | hm
      · rcases sources_traverse d v (some pid) ("[" ++ natStr idx ++ "]")
            (ppath ++ "[" ++ natStr idx ++ "]") c e hf with
          ⟨q, hq, hs⟩ | ⟨i, h1, h2, h3⟩
        · exact Or.inl (by cases hq; exact hs)
        · exact Or.inr ⟨i, h1, by have := sizeJ_pos v; omega, h3⟩
      · rw [counter_traverse d v (some pid) ("[" ++ natStr idx ++ "]")
            (ppath ++ "[" ++ natStr idx ++ "]") c] at hm
        rcases sources_elems d rest pid ppath (idx + 1) (c + sizeJ v) e hm with h | ⟨i, h1, h2, h3⟩
        · exact Or.inl h
        · exact Or.inr ⟨i, by omega, by omega, h3⟩
end

mutual
theorem edge_parent_traverse (d : Bool) (v : JsonValue) (p : Option String)
    (l path : String) (c : Nat) :
    ∀ e ∈ (traverse d v p l path c).2.1,
      ∃ n ∈ (traverse d v p l path c).1, n.id = e.target ∧ n.parent = some e.source := by
  match v with
  | .obj es =>
      intro e he
      rw [traverse] at he ⊢
      simp only at he ⊢
      rcases List.mem_append.mp he with hpe | hin
      · match p, hpe with
        | some q, hpe =>
            simp only [parentEdges, List.mem_singleton] at hpe
            refine ⟨mkNode d c (JsonValue.obj es) l path (some q), List.mem_cons_self _ _, ?_, ?_⟩
            · rw [hpe]; rfl
            · rw [hpe]; rfl
      · obtain ⟨n, hn, h1, h2⟩ := edge_parent_entries d es (mkId c) path (c + 1) e hin
        exact ⟨n, List.mem_cons_of_mem _ hn, h1, h2⟩
  | .arr vs =>
      intro e he
      rw [traverse] at he ⊢
      simp only at he ⊢
      rcases List.mem_append.mp he with hpe | hin
      · match p, hpe with
        | some q, hpe =>
            simp only [parentEdges, List.mem_singleton] at hpe
            refine ⟨mkNode d c (JsonValue.arr vs) l path (some q), List.mem_cons_self _ _, ?_, ?_⟩
            · rw [hpe]; rfl
            · rw [hpe]; rfl
      · obtain ⟨n, hn, h1, h2⟩ := edge_parent_elems d vs (mkId c) path 0 (c + 1) e hin
        exact ⟨n, List.mem_cons_of_mem _ hn, h1, h2⟩
  | .prim q =>
      intro e he
      rw [traverse] at he ⊢
      simp only at he ⊢
      match p, he with
      | some r, he =>
          simp only [parentEdges, List.mem_singleton] at he
          refine ⟨mkNode d c (JsonValue.prim q) l path (some r), List.mem_singleton_self _, ?_, ?_⟩
          · rw [he]; rfl
          · rw [he]; rfl

theorem edge_parent_entries (d : Bool) (es : List (String × JsonValue))
    (pid ppath : String) (c : Nat) :
    ∀ e ∈ (traverseEntries d es pid ppath c).2.1,
      ∃ n ∈ (traverseEntries d es pid ppath c).1,
        n.id = e.target ∧ n.parent = some e.source := by
  match es with
  | [] => intro e he; rw [traverseEntries] at he; simp at he
  | (k, v) :: rest =>
      intro e he
      rw [traverseEntries] at he ⊢
      simp only at he ⊢
      rcases List.mem_append.mp he with hf | hm
      · obtain ⟨n, hn, h1, h2⟩ :=
          edge_parent_traverse d v (some pid) k (ppath ++ "." ++ k) c e hf
        exact ⟨n, List.mem_append_left _ hn, h1, h2⟩
      · obtain ⟨n, hn, h1, h2⟩ :=
          edge_parent_entries d rest pid ppath _ e hm
        exact ⟨n, List.mem_append_right _ hn, h1, h2⟩

theorem edge_parent_elems (d : Bool) (vs : List JsonValue) (pid ppath : String)
    (idx c : Nat) :
    ∀ e ∈ (traverseElems d vs pid ppath idx c).2.1,
      ∃ n ∈ (traverseElems d vs pid ppath idx c).1,
        n.id = e.target ∧ n.parent = some e.source := by
  match vs with
  | [] => intro e he; rw [traverseElems] at he; simp at he
  | v :: rest =>
      intro e he
      rw [traverseElems] at he ⊢
      simp only at he ⊢
      rcases List.mem_append.mp he with hf | hm
      · obtain ⟨n, hn, h1, h2⟩ :=
          edge_parent_traverse d v (some pid) ("[" ++ natStr idx ++ "]")
            (ppath ++ "[" ++ natStr idx ++ "]") c e hf
        exact ⟨n, List.mem_append_left _ hn, h1, h2⟩
      · obtain ⟨n, hn, h1, h2⟩ :=
          edge_parent_elems d rest pid ppath (idx + 1) _ e hm
        exact ⟨n, List.mem_append_right _ hn, h1, h2⟩
end

theorem head_traverse (d : Bool) (v : JsonValue) (p : Option String)
    (l path : String) (c : Nat) :
    (traverse d v p l path c).1 =
      mkNode d c v l path p :: (traverse d v p l path c).1.tail := by
  cases v <;> rw [traverse] <;> rfl

/-! ## Freshly built nodes are unhighlighted; the theme flag is the only
node content that depends on the ambient theme. -/

mutual
theorem hl_traverse (d : Bool) (v : JsonValue) (p : Option String)
    (l path : String) (c : Nat) :
    ∀ n ∈ (traverse d v p l path c).1, n.data.isHighlighted = false := by
  match v with
  | .obj es =>
      intro n hn
      rw [traverse] at hn
      simp only [List.mem_cons] at hn
      rcases hn with h | h
      · rw [h]; rfl
      · exact hl_entries d es (mkId c) path (c + 1) n h
  | .arr vs =>
      intro n hn
      rw [traverse] at hn
      simp only [List.mem_cons] at hn
      rcases hn with h | h
      · rw [h]; rfl
      · exact hl_elems d vs (mkId c) path 0 (c + 1) n h
  | .prim q =>
      intro n hn
      rw [traverse] at hn
      simp only [List.mem_singleton] at hn
      rw [hn]; rfl

theorem hl_entries (d : Bool) (es : List (String × JsonValue))
    (pid ppath : String) (c : Nat) :
    ∀ n ∈ (traverseEntries d es pid ppath c).1, n.data.isHighlighted = false := by
  match es with
  | [] => intro n hn; rw [traverseEntries] at hn; simp at hn
  | (k, v) :: rest =>
      intro n hn
      rw [traverseEntries] at hn
      simp only at hn
      rcases List.mem_append.mp hn with h | h
      · exact hl_traverse d v (some pid) k (ppath ++ "." ++ k) c n h
      · exact hl_entries d rest pid ppath _ n h

theorem hl_elems (d : Bool) (vs : List JsonValue) (pid ppath : String)
    (idx c : Nat) :
    ∀ n ∈ (traverseElems d vs pid ppath idx c).1, n.data.isHighlighted = false := by
  match vs with
  | [] => intro n hn; rw [traverseElems] at hn; simp at hn
  | v :: rest =>
      intro n hn
      rw [traverseElems] at hn
      simp only at hn
      rcases List.mem_append.mp hn with h | h
      · exact hl_traverse d v (some pid) ("[" ++ natStr idx ++ "]")
          (ppath ++ "[" ++ natStr idx ++ "]") c n h
      · exact hl_elems d rest pid ppath (idx + 1) _ n h
end

mutual
theorem theme_traverse (d d' : Bool) (v : JsonValue) (p : Option String)
    (l path : String) (c : Nat) :
    (traverse d v p l path c).1.map stripTheme =
      (traverse d' v p l path c).1.map stripTheme ∧
    (traverse d v p l path c).2 = (traverse d' v p l path c).2 := by
  match v with
  | .obj es =>
      rw [traverse, traverse]
      have ih := theme_entries d d' es (mkId c) path (c + 1)
      simp only [List.map_cons]
      refine ⟨?_, ?_⟩
      · rw [ih.1]
        simp [mkNode, stripTheme]
      · rw [ih.2]
  | .arr vs =>
      rw [traverse, traverse]
      have ih := theme_elems d d' vs (mkId c) path 0 (c + 1)
      simp only [List.map_cons]
      refine ⟨?_, ?_⟩
      · rw [ih.1]
        simp [mkNode, stripTheme]
      · rw [ih.2]
  | .prim q =>
      rw [traverse, traverse]
      exact ⟨by simp [mkNode, stripTheme], rfl⟩

theorem theme_entries (d d' : Bool) (es : List (String × JsonValue))
    (pid ppath : String) (c : Nat) :
    (traverseEntries d es pid ppath c).1.map stripTheme =
      (traverseEntries d' es pid ppath c).1.map stripTheme ∧
    (traverseEntries d es pid ppath c).2 = (traverseEntries d' es pid ppath c).2 := by
  match es with
  | [] => exact ⟨rfl, rfl⟩
  | (k, v) :: rest =>
      rw [traverseEntries, traverseEntries]
      have ih1 := theme_traverse d d' v (some pid) k (ppath ++ "." ++ k) c
      have hn1 := ih1.1
      have he1 := congrArg Prod.fst ih1.2
      have hc1 := congrArg Prod.snd ih1.2
      simp only at he1 hc1
      have ih2 := theme_entries d d' rest pid ppath
        ((traverse d' v (some pid) k (ppath ++ "." ++ k) c).2.2)
      have h20 := ih2.1
      have h21 := congrArg Prod.fst ih2.2
      have h22 := congrArg Prod.snd ih2.2
      simp only at h21 h22
      constructor
      · simp only [List.map_append]
        rw [hn1, hc1, h20]
      · refine Prod.ext ?_ ?_
        · simp only
          rw [he1, hc1, h21]
        · simp only
          rw [hc1, h22]

theorem theme_elems (d d' : Bool) (vs : List JsonValue) (pid ppath : String)
    (idx c : Nat) :
    (traverseElems d vs pid ppath idx c).1.map stripTheme =
      (traverseElems d' vs pid ppath idx c).1.map stripTheme ∧
    (traverseElems d vs pid ppath idx c).2 = (traverseElems d' vs pid ppath idx c).2 := by
  match vs with
  | [] => exact ⟨rfl, rfl⟩
  | v :: rest =>
      rw [traverseElems, traverseElems]
      have ih1 := theme_traverse d d' v (some pid) ("[" ++ natStr idx ++ "]")
        (ppath ++ "[" ++ natStr idx ++ "]") c
      have hn1 := ih1.1
      have he1 := congrArg Prod.fst ih1.2
      have hc1 := congrArg Prod.snd ih1.2
      simp only at he1 hc1
      have ih2 := theme_elems d d' rest pid ppath (idx + 1)
        ((traverse d' v (some pid) ("[" ++ natStr idx ++ "]")
          (ppath ++ "[" ++ natStr idx ++ "]") c).2.2)
      have h20 := ih2.1
      have h21 := congrArg Prod.fst ih2.2
      have h22 := congrArg Prod.snd ih2.2
      simp only at h21 h22
      constructor
      · simp only [List.map_append]
        rw [hn1, hc1, h20]
      · refine Prod.ext ?_ ?_
        · simp only
          rw [he1, hc1, h21]
        · simp only
          rw [hc1, h22]
end

/-! ## Claim C8: determinism and theme-independence of the build. -/

/-- C8: TreeBuilder (createTree) is pure with respect to its JsonValue
input: it is modelled as a function of the parsed value and the ambient
theme flag alone, so two builds on the same input yield structurally
identical trees with the same generated ids (the id renumbering between
two builds is the identity, because the counter restarts at 0 on every
call); the node lists agree up to the display theme flag, the edge lists
agree exactly, and the id sequences agree exactly even across different
ambient theme settings. -/
theorem createTree_pure (d d' : Bool) (v : JsonValue) :
    (createTree d v).1.map stripTheme = (createTree d' v).1.map stripTheme ∧
    (createTree d v).2 = (createTree d' v).2 ∧
    (createTree d v).1.map (fun n => n.id) = (createTree d' v).1.map (fun n => n.id) := by
  have h := theme_traverse d d' v none "root" "$" 0
  refine ⟨h.1, congrArg Prod.fst h.2, ?_⟩
  rw [show (createTree d v).1 = (traverse d v none "root" "$" 0).1 from rfl,
    show (createTree d' v).1 = (traverse d' v none "root" "$" 0).1 from rfl,
    ids_traverse, ids_traverse]

/-! ## Claim C4: the node count. -/

mutual
theorem sizeJ_eq_entryCount (v : JsonValue) : sizeJ v = 1 + entryCount v := by
  match v with
  | .obj es => rw [sizeJ, entryCount, sizeEntries_eq_ecEntries es]
  | .arr vs => rw [sizeJ, entryCount, sizeElems_eq_ecElems vs]
  | .prim q => rw [sizeJ, entryCount]

theorem sizeEntries_eq_ecEntries (es : List (String × JsonValue)) :
    sizeEntries es = ecEntries es := by
  match es with
  | [] => rw [sizeEntries, ecEntries]
  | (k, v) :: rest =>
      rw [sizeEntries, ecEntries, sizeJ_eq_entryCount v, sizeEntries_eq_ecEntries rest]

theorem sizeElems_eq_ecElems (vs : List JsonValue) :
    sizeElems vs = ecElems vs := by
  match vs with
  | [] => rw [sizeElems, ecElems]
  | v :: rest =>
      rw [sizeElems, ecElems, sizeJ_eq_entryCount v, sizeElems_eq_ecElems rest]
end

/-- C4: for every JsonValue, the number of nodes produced by TreeBuilder
equals 1 plus the total number of object entries and array elements
reachable in the value, counted recursively. -/
theorem node_count_invariant (d : Bool) (v : JsonValue) :
    ((createTree d v).1).length = 1 + entryCount v := by
  rw [show (createTree d v).1 = (traverse d v none "root" "$" 0).1 from rfl,
    length_traverse, sizeJ_eq_entryCount]

/-! ## Claim C3: unique root, unique incoming edge from the parent. -/

theorem targets_createTree (d : Bool) (v : JsonValue) :
    (createTree d v).2.map (fun e => e.target) =
      (List.range' 1 (sizeJ v - 1)).map mkId := by
  have h := targets_root d v "root" "$" 0
  rw [show (createTree d v).2 = (traverse d v none "root" "$" 0).2.1 from rfl, h]
  obtain ⟨k, hk⟩ : ∃ k, sizeJ v = k + 1 := ⟨sizeJ v - 1, by have := sizeJ_pos v; omega⟩
  rw [hk, List.range'_succ]
  simp

theorem incoming_count (d : Bool) (v : JsonValue) (x : String) :
    (createTree d v).2.countP (fun e => e.target == x) =
      ((List.range' 1 (sizeJ v - 1)).map mkId).count x := by
  rw [← targets_createTree d v, List.count, List.countP_map]
  rfl

theorem targets_nodup (v : JsonValue) :
    ((List.range' 1 (sizeJ v - 1)).map mkId).Nodup :=
  (List.nodup_range' 1 (sizeJ v - 1)).map_on (fun a _ b _ h => mkId_inj a b h)

/-- C3: TreeBuilder output has exactly one node with no incoming edge (the
root); every node has at most one incoming edge, so every non-root node
has exactly one; and each incoming edge comes from the id of the parent
that created the node (the `parent` ghost field records the parent
argument of the creating `traverse` call). -/
theorem tree_edges_wellformed (d : Bool) (v : JsonValue) :
    ((createTree d v).1.countP
        (fun n => (createTree d v).2.countP (fun e => e.target == n.id) == 0)) = 1 ∧
    (∀ n ∈ (createTree d v).1,
        (createTree d v).2.countP (fun e => e.target == n.id) ≤ 1) ∧
    (∀ n ∈ (createTree d v).1, ∀ e ∈ (createTree d v).2,
        e.target = n.id → n.parent = some e.source) := by
  have hids : (createTree d v).1.map (fun n => n.id) =
      (List.range' 0 (sizeJ v)).map mkId := by
    rw [show (createTree d v).1 = (traverse d v none "root" "$" 0).1 from rfl, ids_traverse]
  refine ⟨?_, ?_, ?_⟩
  · have hmap : (createTree d v).1.countP
        (fun n => (createTree d v).2.countP (fun e => e.target == n.id) == 0) =
        ((createTree d v).1.map (fun n => n.id)).countP
          (fun x => (createTree d v).2.countP (fun e => e.target == x) == 0) := by
      rw [List.countP_map]; rfl
    rw [hmap, hids]
    obtain ⟨k, hk⟩ : ∃ k, sizeJ v = k + 1 := ⟨sizeJ v - 1, by have := sizeJ_pos v; omega⟩
    rw [hk, List.range'_succ, List.map_cons, List.countP_cons]
    have h0 : (createTree d v).2.countP (fun e => e.target == mkId 0) = 0 := by
      rw [incoming_count, List.count_eq_zero]
      intro hmem
      obtain ⟨i, hi, hmk⟩ := List.mem_map.mp hmem
      have : i = 0 := mkId_inj i 0 hmk
      subst this
      have := List.mem_range'_1.mp hi
      omega
    have hrest : ((List.range' (0 + 1) k).map mkId).countP
        (fun x => (createTree d v).2.countP (fun e => e.target == x) == 0) = 0 := by
      rw [List.countP_eq_zero]
      intro x hx
      have h1 : (createTree d v).2.countP (fun e => e.target == x) = 1 := by
        rw [incoming_count]
        exact List.count_eq_one_of_mem (targets_nodup v) (by simpa [hk] using hx)
      simp [h1]
    rw [hrest, h0]
    simp
  · intro n _
    rw [incoming_count]
    exact List.nodup_iff_count_le_one.mp (targets_nodup v) n.id
  · intro n hn e he htar
    obtain ⟨n', hn', h1, h2⟩ := edge_parent_traverse d v none "root" "$" 0 e he
    have : n' = n := by
      refine List.inj_on_of_nodup_map (f := fun n => n.id) ?_ hn' hn ?_
      · exact ids_nodup d v none "root" "$" 0
      · show n'.id = n.id
        rw [h1, htar]
    rw [← this, h2]

/-- Witness for the root/incoming-edge theorem at the concrete input
`{"a": null}`: the root count is 1, the second node has at most one
incoming edge, and its recorded parent is the source of its incoming
edge. -/
theorem tree_edges_wellformed_witness :
    ((createTree true (JsonValue.obj [("a", JsonValue.prim JPrim.jnull)])).1.countP
        (fun n => (createTree true (JsonValue.obj [("a", JsonValue.prim JPrim.jnull)])).2.countP
          (fun e => e.target == n.id) == 0)) = 1 ∧
    (createTree true (JsonValue.obj [("a", JsonValue.prim JPrim.jnull)])).2.countP
        (fun e => e.target ==
          (mkNode true 1 (JsonValue.prim JPrim.jnull) "a" "$.a" (some "node-0")).id) ≤ 1 ∧
    (mkNode true 1 (JsonValue.prim JPrim.jnull) "a" "$.a" (some "node-0")).parent =
      some ({ id := "edge-node-0-node-1", source := "node-0", target := "node-1" } : RFEdge).source := by
  refine ⟨(tree_edges_wellformed true (JsonValue.obj [("a", JsonValue.prim JPrim.jnull)])).1, ?_, ?_⟩
  · exact (tree_edges_wellformed true
      (JsonValue.obj [("a", JsonValue.prim JPrim.jnull)])).2.1 _ (by decide)
  · exact (tree_edges_wellformed true
      (JsonValue.obj [("a", JsonValue.prim JPrim.jnull)])).2.2 _ (by decide) _ (by decide) (by decide)

/-! ## Claims C7, C9, C10: handler behaviour on the application state. -/

theorem applyPos_data (L : List (List String)) (n : RFNode) :
    (applyPos L n).data = n.data := by
  unfold applyPos
  cases posOf L n.id with
  | none => rfl
  | some p =>
      obtain ⟨a, b, c⟩ := p
      rfl

theorem applyPos_id (L : List (List String)) (n : RFNode) :
    (applyPos L n).id = n.id := by
  unfold applyPos
  cases posOf L n.id with
  | none => rfl
  | some p =>
      obtain ⟨a, b, c⟩ := p
      rfl

theorem layout_data (ns : List RFNode) (es : List RFEdge) :
    ∀ n ∈ layoutNodes ns es, ∃ m ∈ ns, n.data = m.data := by
  intro n hn
  unfold layoutNodes at hn
  obtain ⟨m, hm, hmap⟩ := List.mem_map.mp hn
  exact ⟨m, hm, by rw [← hmap, applyPos_data]⟩

/-- C7: when the input fails to parse, the visualize action surfaces an
error message that wraps the parser diagnostic (`"Invalid JSON: " ++ msg`)
and empties both the node and the edge state, never leaving a partial
tree; when the input parses, the error message is cleared. -/
theorem visualize_error_handling (st : AppState) :
    (∀ msg, (handleVisualize (Except.error msg) st).error = "Invalid JSON: " ++ msg ∧
      (handleVisualize (Except.error msg) st).nodes = [] ∧
      (handleVisualize (Except.error msg) st).edges = []) ∧
    (∀ v, (handleVisualize (Except.ok v) st).error = "") := by
  constructor
  · intro msg
    refine ⟨rfl, rfl, rfl⟩
  · intro v
    rfl

/-- C10: a successful visualize action resets the search-result message to
empty, every node of the freshly built and laid-out tree is
unhighlighted, and the search-field text is left unchanged. -/
theorem visualize_success_frame (v : JsonValue) (st : AppState) :
    (handleVisualize (Except.ok v) st).searchResult = "" ∧
    (∀ n ∈ (handleVisualize (Except.ok v) st).nodes, n.data.isHighlighted = false) ∧
    (handleVisualize (Except.ok v) st).searchPath = st.searchPath := by
  refine ⟨rfl, ?_, rfl⟩
  intro n hn
  have hn' : n ∈ layoutNodes (createTree st.isDark v).1 (createTree st.isDark v).2 := hn
  obtain ⟨m, hm, hdata⟩ := layout_data _ _ n hn'
  rw [hdata]
  exact hl_traverse st.isDark v none "root" "$" 0 m hm

/-- Witness for the successful-visualize frame theorem at the concrete
input `{"a": null}` and an initial state carrying search text `abc`. -/
theorem visualize_success_frame_witness :
    (handleVisualize (Except.ok (JsonValue.obj [("a", JsonValue.prim JPrim.jnull)]))
        ⟨"", "abc", [], [], "", "", true⟩).searchResult = "" ∧
    ((handleVisualize (Except.ok (JsonValue.obj [("a", JsonValue.prim JPrim.jnull)]))
        ⟨"", "abc", [], [], "", "", true⟩).nodes.map
          (fun n => n.data.isHighlighted)) = [false, false] ∧
    (handleVisualize (Except.ok (JsonValue.obj [("a", JsonValue.prim JPrim.jnull)]))
        ⟨"", "abc", [], [], "", "", true⟩).searchPath = "abc" := by
  have h := visualize_success_frame (JsonValue.obj [("a", JsonValue.prim JPrim.jnull)])
    ⟨"", "abc", [], [], "", "", true⟩
  refine ⟨h.1, ?_, h.2.2⟩
  have h1 := h.2.1 ((handleVisualize
      (Except.ok (JsonValue.obj [("a", JsonValue.prim JPrim.jnull)]))
      ⟨"", "abc", [], [], "", "", true⟩).nodes.get ⟨0, by decide⟩) (by apply List.get_mem)
  have h2 := h.2.1 ((handleVisualize
      (Except.ok (JsonValue.obj [("a", JsonValue.prim JPrim.jnull)]))
      ⟨"", "abc", [], [], "", "", true⟩).nodes.get ⟨1, by decide⟩) (by apply List.get_mem)
  revert h1 h2
  decide

/-- C9: a search string that is empty after trimming clears every
highlight flag and resets the search-result message to the empty string,
which differs from both the match outcome `Match found!` and the no-match
outcome `No match found`, themselves distinct. -/
theorem search_clear (st : AppState) (h : jsTrim st.searchPath = "") :
    (handleSearch st).searchResult = "" ∧
    (handleSearch st).nodes = st.nodes.map clearHL ∧
    ("" ≠ "Match found!" ∧ "" ≠ "No match found" ∧
      ("Match found!" : String) ≠ "No match found") := by
  rw [handleSearch, if_pos h]
  exact ⟨rfl, rfl, by decide, by decide, by decide⟩

/-- Witness for the clear-search theorem: a state with one highlighted
node and whitespace search text. -/
theorem search_clear_witness :
    (handleSearch ⟨"", "  ",
        [mkNode true 0 (JsonValue.prim JPrim.jnull) "root" "$" none], [], "", "old", true⟩).searchResult = "" ∧
    (handleSearch ⟨"", "  ",
        [mkNode true 0 (JsonValue.prim JPrim.jnull) "root" "$" none], [], "", "old", true⟩).nodes =
      [mkNode true 0 (JsonValue.prim JPrim.jnull) "root" "$" none].map clearHL := by
  have h := search_clear ⟨"", "  ",
    [mkNode true 0 (JsonValue.prim JPrim.jnull) "root" "$" none], [], "", "old", true⟩ (by decide)
  exact ⟨h.1, h.2.1⟩

/-! ## Claim C6: search normalization is insensitive to whitespace and to
a leading `$.` prefix. -/

theorem dropWhile_ws_left (w l : List Char) (hw : ∀ c ∈ w, isJsWs c = true) :
    List.dropWhile isJsWs (w ++ l) = List.dropWhile isJsWs l := by
  rw [List.dropWhile_append]
  have h : List.dropWhile isJsWs w = [] := List.dropWhile_eq_nil_iff.mpr hw
  simp [h]

theorem dropWhile_head_not (p : Char → Bool) (l : List Char)
    (h : ∀ c, l.head? = some c → p c = false) : List.dropWhile p l = l := by
  cases l with
  | nil => rfl
  | cons c rest =>
      rw [List.dropWhile_cons, h c rfl]
      simp

theorem dropWhile_length_eq (p : Char → Bool) (l : List Char)
    (h : (List.dropWhile p l).length = l.length) : List.dropWhile p l = l := by
  cases l with
  | nil => rfl
  | cons c rest =>
      rw [List.dropWhile_cons] at h ⊢
      by_cases hc : p c
      · rw [if_pos hc] at h
        have hle := (List.dropWhile_sublist (l := rest) p).length_le
        simp only [List.length_cons] at h
        omega
      · rw [if_neg hc]

theorem jsTrim_wrap (s w₁ w₂ : String) (h1 : ∀ c ∈ w₁.data, isJsWs c = true)
    (h2 : ∀ c ∈ w₂.data, isJsWs c = true) : jsTrim (w₁ ++ s ++ w₂) = jsTrim s := by
  apply String.ext
  show ((((w₁ ++ s ++ w₂).data).dropWhile isJsWs).reverse.dropWhile isJsWs).reverse =
    (((s.data).dropWhile isJsWs).reverse.dropWhile isJsWs).reverse
  rw [String.data_append, String.data_append, List.append_assoc,
    dropWhile_ws_left w₁.data _ h1]
  by_cases hall : ∀ c ∈ s.data, isJsWs c = true
  · have hs : List.dropWhile isJsWs (s.data ++ w₂.data) = [] := by
      rw [List.dropWhile_eq_nil_iff]
      intro x hx
      rcases List.mem_append.mp hx with h | h
      · exact hall x h
      · exact h2 x h
    have hs2 : List.dropWhile isJsWs s.data = [] := List.dropWhile_eq_nil_iff.mpr hall
    rw [hs, hs2]
  · have hne : List.dropWhile isJsWs s.data ≠ [] :=
      fun h => hall (List.dropWhile_eq_nil_iff.mp h)
    rw [List.dropWhile_append, if_neg (by simpa [List.isEmpty_iff] using hne),
      List.reverse_append]
    rw [dropWhile_ws_left w₂.data.reverse _
      (fun c hc => h2 c (List.mem_reverse.mp hc))]

theorem jsTrim_eq_self (s : String)
    (hh : ∀ c, s.data.head? = some c → isJsWs c = false)
    (hl : ∀ c, s.data.getLast? = some c → isJsWs c = false) : jsTrim s = s := by
  apply String.ext
  show ((s.data.dropWhile isJsWs).reverse.dropWhile isJsWs).reverse = s.data
  rw [dropWhile_head_not _ _ hh]
  rw [dropWhile_head_not _ _ (fun c hc => hl c (by rwa [List.head?_reverse] at hc))]
  exact List.reverse_reverse _

theorem jsTrim_self_getLast (t : String) (h : jsTrim t = t) :
    ∀ c, t.data.getLast? = some c → isJsWs c = false := by
  intro c hc
  by_contra hws
  rw [Bool.not_eq_false] at hws
  have hdata : ((t.data.dropWhile isJsWs).reverse.dropWhile isJsWs).reverse = t.data :=
    congrArg String.data h
  have hlenEq : ((t.data.dropWhile isJsWs).reverse.dropWhile isJsWs).length = t.data.length := by
    have := congrArg List.length hdata
    simpa using this
  have hle1 : ((t.data.dropWhile isJsWs).reverse.dropWhile isJsWs).length ≤
      (t.data.dropWhile isJsWs).length := by
    have := (List.dropWhile_sublist (l := (t.data.dropWhile isJsWs).reverse) isJsWs).length_le
    simpa using this
  have hle2 : (t.data.dropWhile isJsWs).length ≤ t.data.length :=
    (List.dropWhile_sublist (l := t.data) isJsWs).length_le
  have hreq : t.data.dropWhile isJsWs = t.data := dropWhile_length_eq _ _ (by omega)
  have hhead : (t.data.dropWhile isJsWs).reverse.head? = some c := by
    rw [hreq, List.head?_reverse]
    exact hc
  cases hrev : (t.data.dropWhile isJsWs).reverse with
  | nil => rw [hrev] at hhead; simp at hhead
  | cons x xs =>
      rw [hrev] at hhead
      simp only [List.head?_cons, Option.some.injEq] at hhead
      rw [hrev, List.dropWhile_cons, hhead, if_pos hws] at hlenEq
      have hle3 : (List.dropWhile isJsWs xs).length ≤ xs.length :=
        (List.dropWhile_sublist (l := xs) isJsWs).length_le
      have hxs : t.data.length = xs.length + 1 := by
        have := congrArg List.length hrev
        simp only [List.length_reverse] at this
        rw [hreq] at this
        simpa using this
      omega

/-- C6: the search normalization trims the raw string and prepends `$.`
unless the trimmed string already starts with `$` (first conjunct, which
is the definition of `normalizePath`); consequently path matching is
unchanged by wrapping the search string in whitespace (second conjunct)
and by adding or removing the leading `$.` prefix (third conjunct). -/
theorem pathMatcher_normalization :
    (∀ raw, normalizePath raw =
        if startsDollar (jsTrim raw) then jsTrim raw else "$." ++ jsTrim raw) ∧
    (∀ (s w₁ w₂ : String), (∀ c ∈ w₁.data, isJsWs c = true) →
      (∀ c ∈ w₂.data, isJsWs c = true) →
      ∀ nodes, pathMatcherId (w₁ ++ s ++ w₂) nodes = pathMatcherId s nodes) ∧
    (∀ t : String, jsTrim t = t → startsDollar t = false →
      ∀ nodes, pathMatcherId ("$." ++ t) nodes = pathMatcherId t nodes) := by
  refine ⟨fun raw => rfl, ?_, ?_⟩
  · intro s w₁ w₂ h1 h2 nodes
    have hnorm : normalizePath (w₁ ++ s ++ w₂) = normalizePath s := by
      unfold normalizePath
      rw [jsTrim_wrap s w₁ w₂ h1 h2]
    unfold pathMatcherId
    simp only [hnorm]
  · intro t ht hd nodes
    have hdat : ("$." ++ t).data = '$' :: '.' :: t.data := by
      rw [String.data_append]
      rfl
    have htd : jsTrim ("$." ++ t) = "$." ++ t := by
      apply jsTrim_eq_self
      · intro c hc
        rw [hdat] at hc
        simp only [List.head?_cons, Option.some.injEq] at hc
        rw [← hc]
        decide
      · intro c hc
        rw [hdat] at hc
        cases hnil : t.data with
        | nil =>
            rw [hnil] at hc
            simp only [List.getLast?_cons_cons, List.getLast?_singleton,
              Option.some.injEq] at hc
            rw [← hc]
            decide
        | cons x xs =>
            apply jsTrim_self_getLast t ht
            rw [hnil]
            rw [hnil] at hc
            simpa [List.getLast?_cons_cons] using hc
    have hsd : startsDollar ("$." ++ t) = true := by
      unfold startsDollar
      rw [hdat]
      rfl
    have hn1 : normalizePath ("$." ++ t) = "$." ++ t := by
      unfold normalizePath
      rw [htd, hsd]
      simp
    have hn2 : normalizePath t = "$." ++ t := by
      unfold normalizePath
      rw [ht, hd]
      simp
    unfold pathMatcherId
    simp only [hn1, hn2]

/-- Witness for the normalization theorem: searching `user` wrapped in
spaces matches like `user`, and `$.user` matches like `user`, over a
singleton node list. -/
theorem pathMatcher_normalization_witness :
    pathMatcherId (" " ++ "user" ++ " ")
        [mkNode true 1 (JsonValue.prim JPrim.jnull) "user" "$.user" (some "node-0")] =
      pathMatcherId "user"
        [mkNode true 1 (JsonValue.prim JPrim.jnull) "user" "$.user" (some "node-0")] ∧
    pathMatcherId ("$." ++ "user")
        [mkNode true 1 (JsonValue.prim JPrim.jnull) "user" "$.user" (some "node-0")] =
      pathMatcherId "user"
        [mkNode true 1 (JsonValue.prim JPrim.jnull) "user" "$.user" (some "node-0")] := by
  constructor
  · exact pathMatcher_normalization.2.1 "user" " " " " (by decide) (by decide) _
  · exact pathMatcher_normalization.2.2 "user" (by decide) (by decide) _

/-! ## Claims C1 and C2: the produced path strings. -/

theorem str_append_mk (a b : List Char) : (⟨a⟩ : String) ++ ⟨b⟩ = ⟨a ++ b⟩ := rfl

theorem str_append_nil (s : String) : s ++ (⟨[]⟩ : String) = s := by
  apply String.ext
  rw [String.data_append]
  exact List.append_nil _

theorem key_path_step (ppath k : String) (cs : List Char) :
    ((ppath ++ ".") ++ k) ++ (⟨cs⟩ : String) = ppath ++ ⟨('.' :: k.data) ++ cs⟩ := by
  apply String.ext
  simp only [String.data_append]
  simp

theorem idx_path_step (ppath : String) (i : Nat) (cs : List Char) :
    (((ppath ++ "[") ++ natStr i) ++ "]") ++ (⟨cs⟩ : String) =
      ppath ++ ⟨('[' :: (natDigits i ++ [']'])) ++ cs⟩ := by
  apply String.ext
  simp only [String.data_append]
  rw [show (natStr i).data = natDigits i from rfl]
  simp

mutual
theorem paths_traverse (d : Bool) (v : JsonValue) (p : Option String)
    (l path : String) (c : Nat) :
    (traverse d v p l path c).1.map (fun n => n.data.path) =
      (segListsOf v).map (fun s => path ++ ⟨encSegs s⟩) := by
  match v with
  | .obj es =>
      rw [traverse, segListsOf]
      simp only [List.map_cons,
        paths_entries d es (mkId c) path (c + 1)]
      congr 1
      show path = path ++ ⟨encSegs []⟩
      rw [show encSegs [] = [] from rfl, str_append_nil]
  | .arr vs =>
      rw [traverse, segListsOf]
      simp only [List.map_cons,
        paths_elems d vs (mkId c) path 0 (c + 1)]
      congr 1
      show path = path ++ ⟨encSegs []⟩
      rw [show encSegs [] = [] from rfl, str_append_nil]
  | .prim q =>
      rw [traverse, segListsOf]
      simp only [List.map_cons, List.map_nil, mkNode]
      congr 1
      show path = path ++ ⟨encSegs []⟩
      rw [show encSegs [] = [] from rfl, str_append_nil]

theorem paths_entries (d : Bool) (es : List (String × JsonValue))
    (pid ppath : String) (c : Nat) :
    (traverseEntries d es pid ppath c).1.map (fun n => n.data.path) =
      (segListsEntries es).map (fun s => ppath ++ ⟨encSegs s⟩) := by
  match es with
  | [] => rw [traverseEntries, segListsEntries]; rfl
  | (k, v) :: rest =>
      rw [traverseEntries, segListsEntries]
      simp only [List.map_append, List.map_map,
        paths_traverse d v (some pid) k (ppath ++ "." ++ k) c,
        paths_entries d rest pid ppath _]
      congr 1
      apply List.map_congr_left
      intro s _
      show (ppath ++ "." ++ k) ++ ⟨encSegs s⟩ = ppath ++ ⟨encSegs (Seg.key k :: s)⟩
      rw [show encSegs (Seg.key k :: s) = ('.' :: k.data) ++ encSegs s from rfl]
      exact key_path_step ppath k (encSegs s)

theorem paths_elems (d : Bool) (vs : List JsonValue) (pid ppath : String)
    (idx c : Nat) :
    (traverseElems d vs pid ppath idx c).1.map (fun n => n.data.path) =
      (segListsElems vs idx).map (fun s => ppath ++ ⟨encSegs s⟩) := by
  match vs with
  | [] => rw [traverseElems, segListsElems]; rfl
  | v :: rest =>
      rw [traverseElems, segListsElems]
      simp only [List.map_append, List.map_map,
        paths_traverse d v (some pid) ("[" ++ natStr idx ++ "]")
          (ppath ++ "[" ++ natStr idx ++ "]") c,
        paths_elems d rest pid ppath (idx + 1) _]
      congr 1
      apply List.map_congr_left
      intro s _
      show (ppath ++ "[" ++ natStr idx ++ "]") ++ ⟨encSegs s⟩ =
        ppath ++ ⟨encSegs (Seg.idx idx :: s)⟩
      rw [show encSegs (Seg.idx idx :: s) = ('[' :: (natDigits idx ++ [']'])) ++ encSegs s from rfl]
      exact idx_path_step ppath idx (encSegs s)
end

theorem segListsEntries_shape (es : List (String × JsonValue)) :
    ∀ s ∈ segListsEntries es, ∃ k, (∃ v', (k, v') ∈ es) ∧ ∃ s', s = Seg.key k :: s' := by
  induction es with
  | nil => intro s hs; rw [segListsEntries] at hs; simp at hs
  | cons kv rest ih =>
      obtain ⟨k, v⟩ := kv
      intro s hs
      rw [segListsEntries] at hs
      rcases List.mem_append.mp hs with h | h
      · obtain ⟨s', _, hmap⟩ := List.mem_map.mp h
        exact ⟨k, ⟨v, List.mem_cons_self _ _⟩, s', hmap.symm⟩
      · obtain ⟨k', ⟨v', hv'⟩, s', hs'⟩ := ih s h
        exact ⟨k', ⟨v', List.mem_cons_of_mem _ hv'⟩, s', hs'⟩

theorem segListsElems_shape (vs : List JsonValue) :
    ∀ i, ∀ s ∈ segListsElems vs i, ∃ j, i ≤ j ∧ ∃ s', s = Seg.idx j :: s' := by
  induction vs with
  | nil => intro i s hs; rw [segListsElems] at hs; simp at hs
  | cons v rest ih =>
      intro i s hs
      rw [segListsElems] at hs
      rcases List.mem_append.mp hs with h | h
      · obtain ⟨s', _, hmap⟩ := List.mem_map.mp h
        exact ⟨i, le_refl i, s', hmap.symm⟩
      · obtain ⟨j, hj, s', hs'⟩ := ih (i + 1) s h
        exact ⟨j, by omega, s', hs'⟩

mutual
theorem segLists_nodup (v : JsonValue) (h : buildSafe v = true) :
    (segListsOf v).Nodup := by
  match v with
  | .obj es =>
      rw [buildSafe] at h
      rw [Bool.and_eq_true] at h
      obtain ⟨hnd, hbs⟩ := h
      rw [segListsOf, List.nodup_cons]
      refine ⟨?_, segListsEntries_nodup es (of_decide_eq_true hnd) hbs⟩
      intro hmem
      obtain ⟨k, _, s', hs'⟩ := segListsEntries_shape es [] hmem
      exact absurd hs' (by simp)
  | .arr vs =>
      rw [buildSafe] at h
      rw [segListsOf, List.nodup_cons]
      refine ⟨?_, segListsElems_nodup vs 0 h⟩
      intro hmem
      obtain ⟨j, _, s', hs'⟩ := segListsElems_shape vs 0 [] hmem
      exact absurd hs' (by simp)
  | .prim q => rw [segListsOf]; simp

theorem segListsEntries_nodup (es : List (String × JsonValue))
    (hnd : (es.map Prod.fst).Nodup) (h : buildSafeEntries es = true) :
    (segListsEntries es).Nodup := by
  match es with
  | [] => rw [segListsEntries]; simp
  | (k, v) :: rest =>
      rw [buildSafeEntries] at h
      rw [Bool.and_eq_true] at h
      obtain ⟨h1, h23⟩ := h
      rw [Bool.and_eq_true] at h1
      obtain ⟨hks, hbv⟩ := h1
      simp only [List.map_cons, List.nodup_cons] at hnd
      rw [segListsEntries]
      refine List.Nodup.append ?_ (segListsEntries_nodup rest hnd.2 h23) ?_
      · exact (segLists_nodup v hbv).map_on
          (fun a _ b _ hab => by injection hab)
      · intro x hx hx'
        obtain ⟨s₁, _, hmap⟩ := List.mem_map.mp hx
        obtain ⟨k', ⟨v', hv'⟩, s₂, hs₂⟩ := segListsEntries_shape rest x hx'
        rw [← hmap] at hs₂
        have hk : k = k' := by injection hs₂ with h1 h2; injection h1
        apply hnd.1
        rw [hk]
        exact List.mem_map.mpr ⟨(k', v'), hv', rfl⟩

theorem segListsElems_nodup (vs : List JsonValue) (i : Nat)
    (h : buildSafeElems vs = true) : (segListsElems vs i).Nodup := by
  match vs with
  | [] => rw [segListsElems]; simp
  | v :: rest =>
      rw [buildSafeElems] at h
      rw [Bool.and_eq_true] at h
      obtain ⟨hbv, h2⟩ := h
      rw [segListsElems]
      refine List.Nodup.append ?_ (segListsElems_nodup rest (i + 1) h2) ?_
      · exact (segLists_nodup v hbv).map_on
          (fun a _ b _ hab => by injection hab)
      · intro x hx hx'
        obtain ⟨s₁, _, hmap⟩ := List.mem_map.mp hx
        obtain ⟨j, hj, s₂, hs₂⟩ := segListsElems_shape rest (i + 1) x hx'
        rw [← hmap] at hs₂
        have : i = j := by injection hs₂ with h1 h2; injection h1
        omega
end

mutual
theorem segLists_ok (v : JsonValue) (h : buildSafe v = true) :
    ∀ s ∈ segListsOf v, segsOKb s = true := by
  match v with
  | .obj es =>
      rw [buildSafe] at h
      rw [Bool.and_eq_true] at h
      obtain ⟨hnd, hbs⟩ := h
      intro s hs
      rw [segListsOf] at hs
      rcases List.mem_cons.mp hs with h' | h'
      · rw [h']; rfl
      · exact segListsEntries_ok es hbs s h'
  | .arr vs =>
      rw [buildSafe] at h
      intro s hs
      rw [segListsOf] at hs
      rcases List.mem_cons.mp hs with h' | h'
      · rw [h']; rfl
      · exact segListsElems_ok vs 0 h s h'
  | .prim q =>
      intro s hs
      rw [segListsOf] at hs
      simp only [List.mem_singleton] at hs
      rw [hs]; rfl

theorem segListsEntries_ok (es : List (String × JsonValue))
    (h : buildSafeEntries es = true) :
    ∀ s ∈ segListsEntries es, segsOKb s = true := by
  match es with
  | [] => intro s hs; rw [segListsEntries] at hs; simp at hs
  | (k, v) :: rest =>
      rw [buildSafeEntries] at h
      rw [Bool.and_eq_true] at h
      obtain ⟨h1, h23⟩ := h
      rw [Bool.and_eq_true] at h1
      obtain ⟨hks, hbv⟩ := h1
      intro s hs
      rw [segListsEntries] at hs
      rcases List.mem_append.mp hs with h' | h'
      · obtain ⟨s', hs', hmap⟩ := List.mem_map.mp h'
        rw [← hmap, segsOKb, List.all_cons]
        rw [Bool.and_eq_true]
        refine ⟨?_, segLists_ok v hbv s' hs'⟩
        rw [Seg.OKb, hks]
      · exact segListsEntries_ok rest h23 s h'

theorem segListsElems_ok (vs : List JsonValue) (i : Nat)
    (h : buildSafeElems vs = true) :
    ∀ s ∈ segListsElems vs i, segsOKb s = true := by
  match vs with
  | [] => intro s hs; rw [segListsElems] at hs; simp at hs
  | v :: rest =>
      rw [buildSafeElems] at h
      rw [Bool.and_eq_true] at h
      obtain ⟨hbv, h2⟩ := h
      intro s hs
      rw [segListsElems] at hs
      rcases List.mem_append.mp hs with h' | h'
      · obtain ⟨s', hs', hmap⟩ := List.mem_map.mp h'
        rw [← hmap, segsOKb, List.all_cons]
        rw [Bool.and_eq_true]
        exact ⟨rfl, segLists_ok v hbv s' hs'⟩
      · exact segListsElems_ok rest (i + 1) h2 s h'
end

theorem append_stop (S : Char → Bool) :
    ∀ (u₁ u₂ r₁ r₂ : List Char), (∀ c ∈ u₁, S c = false) → (∀ c ∈ u₂, S c = false) →
      (∀ c, r₁.head? = some c → S c = true) → (∀ c, r₂.head? = some c → S c = true) →
      u₁ ++ r₁ = u₂ ++ r₂ → u₁ = u₂ ∧ r₁ = r₂ := by
  intro u₁
  induction u₁ with
  | nil =>
      intro u₂ r₁ r₂ hu₁ hu₂ hr₁ hr₂ h
      cases u₂ with
      | nil => exact ⟨rfl, h⟩
      | cons c u₂' =>
          exfalso
          simp only [List.nil_append, List.cons_append] at h
          have hS : S c = true := hr₁ c (by rw [h]; rfl)
          have : S c = false := hu₂ c (List.mem_cons_self _ _)
          rw [this] at hS
          exact Bool.false_ne_true hS
  | cons c u₁' ih =>
      intro u₂ r₁ r₂ hu₁ hu₂ hr₁ hr₂ h
      cases u₂ with
      | nil =>
          exfalso
          simp only [List.cons_append, List.nil_append] at h
          have hS : S c = true := hr₂ c (by rw [← h]; rfl)
          have : S c = false := hu₁ c (List.mem_cons_self _ _)
          rw [this] at hS
          exact Bool.false_ne_true hS
      | cons c₂ u₂' =>
          simp only [List.cons_append, List.cons.injEq] at h
          obtain ⟨hc, ht⟩ := h
          obtain ⟨h1, h2⟩ := ih u₂' r₁ r₂
            (fun x hx => hu₁ x (List.mem_cons_of_mem _ hx))
            (fun x hx => hu₂ x (List.mem_cons_of_mem _ hx)) hr₁ hr₂ ht
          exact ⟨by rw [hc, h1], h2⟩

theorem seg_enc_cons (a : Seg) (l : List Seg) :
    encSegs (a :: l) = Seg.enc a ++ encSegs l := by
  rw [encSegs, encSegs, List.map_cons, List.flatten_cons]

theorem seg_enc_ne_nil (a : Seg) : Seg.enc a ≠ [] := by
  cases a <;> simp [Seg.enc]

theorem encSegs_head (l : List Seg) :
    ∀ c, (encSegs l).head? = some c → (c == '.' || c == '[') = true := by
  cases l with
  | nil => intro c hc; rw [show encSegs [] = [] from rfl] at hc; simp at hc
  | cons a l' =>
      intro c hc
      rw [seg_enc_cons] at hc
      cases a with
      | key k =>
          rw [show Seg.enc (Seg.key k) = '.' :: k.data from rfl] at hc
          simp only [List.cons_append, List.head?_cons, Option.some.injEq] at hc
          rw [← hc]
          decide
      | idx i =>
          rw [show Seg.enc (Seg.idx i) = '[' :: (natDigits i ++ [']']) from rfl] at hc
          simp only [List.cons_append, List.head?_cons, Option.some.injEq] at hc
          rw [← hc]
          decide

theorem digit_not_bracket :
    ∀ ch ∈ digitCharsL,
      (ch == '.') = false ∧ (ch == '[') = false ∧ (ch == ']') = false := by
  decide

theorem keyCharsOK_stop (k : String) (h : keyCharsOK k = true) :
    ∀ c ∈ k.data, ((c == '.' || c == '[') : Bool) = false := by
  intro c hc
  rw [keyCharsOK] at h
  have := List.all_eq_true.mp h c hc
  simpa using this

theorem seg_enc_inj (a b : Seg) (ra rb : List Char)
    (ha : Seg.OKb a = true) (hb : Seg.OKb b = true)
    (hra : ∀ c, ra.head? = some c → (c == '.' || c == '[') = true)
    (hrb : ∀ c, rb.head? = some c → (c == '.' || c == '[') = true)
    (h : Seg.enc a ++ ra = Seg.enc b ++ rb) : a = b ∧ ra = rb := by
  cases a with
  | key k₁ =>
      cases b with
      | key k₂ =>
          rw [show Seg.enc (Seg.key k₁) = '.' :: k₁.data from rfl,
            show Seg.enc (Seg.key k₂) = '.' :: k₂.data from rfl] at h
          simp only [List.cons_append, List.cons.injEq, true_and] at h
          obtain ⟨hk, hr⟩ := append_stop (fun c => c == '.' || c == '[')
            k₁.data k₂.data ra rb
            (keyCharsOK_stop k₁ (by rw [Seg.OKb] at ha; exact ha))
            (keyCharsOK_stop k₂ (by rw [Seg.OKb] at hb; exact hb))
            hra hrb h
          exact ⟨by rw [String.ext hk], hr⟩
      | idx i₂ =>
          exfalso
          rw [show Seg.enc (Seg.key k₁) = '.' :: k₁.data from rfl,
            show Seg.enc (Seg.idx i₂) = '[' :: (natDigits i₂ ++ [']']) from rfl] at h
          simp only [List.cons_append, List.cons.injEq] at h
          exact absurd h.1 (by decide)
  | idx i₁ =>
      cases b with
      | key k₂ =>
          exfalso
          rw [show Seg.enc (Seg.idx i₁) = '[' :: (natDigits i₁ ++ [']']) from rfl,
            show Seg.enc (Seg.key k₂) = '.' :: k₂.data from rfl] at h
          simp only [List.cons_append, List.cons.injEq] at h
          exact absurd h.1 (by decide)
      | idx i₂ =>
          rw [show Seg.enc (Seg.idx i₁) = '[' :: (natDigits i₁ ++ [']']) from rfl,
            show Seg.enc (Seg.idx i₂) = '[' :: (natDigits i₂ ++ [']']) from rfl] at h
          simp only [List.cons_append, List.cons.injEq, true_and,
            List.append_assoc, List.singleton_append] at h
          obtain ⟨hd, hr⟩ := append_stop (fun c => c == ']')
            (natDigits i₁) (natDigits i₂) (']' :: ra) (']' :: rb)
            (fun c hc => ((digit_not_bracket c (natDigits_mem i₁ c hc)).2.2))
            (fun c hc => ((digit_not_bracket c (natDigits_mem i₂ c hc)).2.2))
            (by intro c hc; simp only [List.head?_cons, Option.some.injEq] at hc
                rw [← hc]; decide)
            (by intro c hc; simp only [List.head?_cons, Option.some.injEq] at hc
                rw [← hc]; decide)
            h
          refine ⟨by rw [natDigits_inj i₁ i₂ hd], ?_⟩
          injection hr

theorem encSegs_inj : ∀ (l₁ l₂ : List Seg), segsOKb l₁ = true → segsOKb l₂ = true →
    encSegs l₁ = encSegs l₂ → l₁ = l₂ := by
  intro l₁
  induction l₁ with
  | nil =>
      intro l₂ _ _ h
      cases l₂ with
      | nil => rfl
      | cons b l₂' =>
          exfalso
          rw [show encSegs [] = [] from rfl, seg_enc_cons] at h
          exact seg_enc_ne_nil b (List.append_eq_nil.mp h.symm).1
  | cons a l₁' ih =>
      intro l₂ h₁ h₂ h
      cases l₂ with
      | nil =>
          exfalso
          rw [show encSegs [] = [] from rfl, seg_enc_cons] at h
          exact seg_enc_ne_nil a (List.append_eq_nil.mp h).1
      | cons b l₂' =>
          rw [seg_enc_cons, seg_enc_cons] at h
          rw [segsOKb, List.all_cons, Bool.and_eq_true] at h₁ h₂
          obtain ⟨hab, hr⟩ := seg_enc_inj a b (encSegs l₁') (encSegs l₂')
            h₁.1 h₂.1 (encSegs_head l₁') (encSegs_head l₂') h
          rw [hab, ih l₂' h₁.2 h₂.2 hr]

/-- C1 (amended): for every JsonValue whose object keys are distinct
within each object and contain neither `.` nor `[`, the `path` strings of
the nodes produced by TreeBuilder are pairwise distinct. The original
unconditional claim is refuted by `path_uniqueness_cex`: a key containing
a separator character collides with a nested path. -/
theorem path_uniqueness (d : Bool) (v : JsonValue) (h : buildSafe v = true) :
    ((createTree d v).1.map (fun n => n.data.path)).Nodup := by
  rw [show (createTree d v).1 = (traverse d v none "root" "$" 0).1 from rfl,
    paths_traverse]
  apply List.Nodup.map_on ?_ (segLists_nodup v h)
  intro s₁ h₁ s₂ h₂ heq
  apply encSegs_inj s₁ s₂ (segLists_ok v h s₁ h₁) (segLists_ok v h s₂ h₂)
  have hd : ("$" : String).data ++ encSegs s₁ = ("$" : String).data ++ encSegs s₂ := by
    have := congrArg String.data heq
    simpa [String.data_append] using this
  exact List.append_cancel_left hd

/-- Witness for the amended path-uniqueness theorem at the concrete input
`{"a": {"b": 1}, "c": [null]}`. -/
theorem path_uniqueness_witness :
    ((createTree true (JsonValue.obj
        [("a", JsonValue.obj [("b", JsonValue.prim (JPrim.jnum 1))]),
         ("c", JsonValue.arr [JsonValue.prim JPrim.jnull])])).1.map
      (fun n => n.data.path)).Nodup :=
  path_uniqueness true
    (JsonValue.obj
      [("a", JsonValue.obj [("b", JsonValue.prim (JPrim.jnum 1))]),
       ("c", JsonValue.arr [JsonValue.prim JPrim.jnull])])
    (by decide)

/-- Counterexample to C1 as stated: on `{"a.b": 1, "a": {"b": 2}}` the
entry key `a.b` and the nested entry `b` of `a` both produce the path
`$.a.b`, so the produced path list is not pairwise distinct. -/
theorem path_uniqueness_cex :
    ¬ ((createTree true (JsonValue.obj
        [("a.b", JsonValue.prim (JPrim.jnum 1)),
         ("a", JsonValue.obj [("b", JsonValue.prim (JPrim.jnum 2))])])).1.map
      (fun n => n.data.path)).Nodup := by
  decide

theorem find_get_nodup (l : List RFNode) (k : Nat) (hk : k < l.length)
    (h : (l.map (fun n => n.data.path)).Nodup) :
    l.find? (fun n => n.data.path == (l.get ⟨k, hk⟩).data.path) = some (l.get ⟨k, hk⟩) := by
  induction l generalizing k with
  | nil => simp at hk
  | cons x rest ih =>
      simp only [List.map_cons, List.nodup_cons] at h
      cases k with
      | zero =>
          rw [show (x :: rest).get ⟨0, hk⟩ = x from rfl]
          exact List.find?_cons_of_pos rest (by simp)
      | succ k' =>
          have hk' : k' < rest.length := by simpa using hk
          rw [show (x :: rest).get ⟨k' + 1, hk⟩ = rest.get ⟨k', hk'⟩ from rfl]
          rw [List.find?_cons_of_neg]
          · exact ih k' hk' h.2
          · intro hbeq
            apply h.1
            rw [beq_iff_eq] at hbeq
            rw [hbeq]
            exact List.mem_map.mpr ⟨rest.get ⟨k', hk'⟩, List.get_mem rest k' hk', rfl⟩

theorem encSegs_getLast :
    ∀ (s : List Seg), (∀ k, Seg.key k ∈ s → keyEndOK k = true) →
      ∀ c, (encSegs s).getLast? = some c → isJsWs c = false := by
  intro s
  induction s with
  | nil =>
      intro _ c hc
      rw [show encSegs [] = [] from rfl] at hc
      simp at hc
  | cons a s' ih =>
      intro hkeys c hc
      rw [seg_enc_cons] at hc
      cases hs' : s' with
  | cons b s'' =>
          rw [hs'] at hc
          have hne : encSegs (b :: s'') ≠ [] := by
            rw [seg_enc_cons]
            intro hnil
            exact seg_enc_ne_nil b (List.append_eq_nil.mp hnil).1
          rw [List.getLast?_append] at hc
          obtain ⟨y, hy⟩ : ∃ y, (encSegs (b :: s'')).getLast? = some y := by
            cases hl : (encSegs (b :: s'')).getLast? with
            | none => exact absurd (List.getLast?_eq_none_iff.mp hl) hne
            | some y => exact ⟨y, rfl⟩
          rw [hy] at hc
          rw [show ∀ (o : Option Char), (some y).or o = some y from fun o => rfl] at hc
          have := ih (fun k hk => hkeys k (List.mem_cons_of_mem _ (hs' ▸ hk)))
          rw [hs'] at this
          injection hc with hc'
          rw [← hc']
          exact this y hy
  | nil =>
          rw [hs'] at hc
          rw [show encSegs [] = [] from rfl, List.append_nil] at hc
          cases a with
          | key k =>
              rw [show Seg.enc (Seg.key k) = ['.'] ++ k.data from rfl,
                List.getLast?_append] at hc
              cases hx : k.data.getLast? with
              | none =>
                  rw [hx] at hc
                  rw [show (Option.none).or ['.'].getLast? = some '.' from rfl] at hc
                  injection hc with hc'
                  rw [← hc']
                  decide
              | some x =>
                  rw [hx] at hc
                  rw [show ∀ (o : Option Char), (some x).or o = some x from fun o => rfl] at hc
                  injection hc with hc'
                  have hk : keyEndOK k = true := hkeys k (List.mem_cons_self _ _)
                  rw [keyEndOK, hx] at hk
                  rw [← hc']
                  rwa [Bool.not_eq_true'] at hk
          | idx i =>
              rw [show Seg.enc (Seg.idx i) = ('[' :: natDigits i) ++ [']'] from
                (by rw [List.cons_append]; rfl), List.getLast?_concat] at hc
              injection hc with hc'
              rw [← hc']
              decide

mutual
theorem segLists_end (v : JsonValue) (h : endSafe v = true) :
    ∀ s ∈ segListsOf v, ∀ k, Seg.key k ∈ s → keyEndOK k = true := by
  match v with
  | .obj es =>
      rw [endSafe] at h
      intro s hs
      rw [segListsOf] at hs
      rcases List.mem_cons.mp hs with h' | h'
      · intro k hk; rw [h'] at hk; simp at hk
      · exact segListsEntries_end es h s h'
  | .arr vs =>
      rw [endSafe] at h
      intro s hs
      rw [segListsOf] at hs
      rcases List.mem_cons.mp hs with h' | h'
      · intro k hk; rw [h'] at hk; simp at hk
      · exact segListsElems_end vs 0 h s h'
  | .prim q =>
      intro s hs
      rw [segListsOf] at hs
      simp only [List.mem_singleton] at hs
      intro k hk
      rw [hs] at hk
      simp at hk

theorem segListsEntries_end (es : List (String × JsonValue))
    (h : endSafeEntries es = true) :
    ∀ s ∈ segListsEntries es, ∀ k, Seg.key k ∈ s → keyEndOK k = true := by
  match es with
  | [] => intro s hs; rw [segListsEntries] at hs; simp at hs
  | (k₀, v) :: rest =>
      rw [endSafeEntries] at h
      rw [Bool.and_eq_true] at h
      obtain ⟨h1, h23⟩ := h
      rw [Bool.and_eq_true] at h1
      obtain ⟨hke, hev⟩ := h1
      intro s hs
      rw [segListsEntries] at hs
      rcases List.mem_append.mp hs with h' | h'
      · obtain ⟨s', hs', hmap⟩ := List.mem_map.mp h'
        intro k hk
        rw [← hmap] at hk
        rcases List.mem_cons.mp hk with hh | hh
        · have : k = k₀ := by injection hh
          rw [this]; exact hke
        · exact segLists_end v hev s' hs' k hh
      · exact segListsEntries_end rest h23 s h'

theorem segListsElems_end (vs : List JsonValue) (i : Nat)
    (h : endSafeElems vs = true) :
    ∀ s ∈ segListsElems vs i, ∀ k, Seg.key k ∈ s → keyEndOK k = true := by
  match vs with
  | [] => intro s hs; rw [segListsElems] at hs; simp at hs
  | v :: rest =>
      rw [endSafeElems] at h
      rw [Bool.and_eq_true] at h
      obtain ⟨hev, h2⟩ := h
      intro s hs
      rw [segListsElems] at hs
      rcases List.mem_append.mp hs with h' | h'
      · obtain ⟨s', hs', hmap⟩ := List.mem_map.mp h'
        intro k hk
        rw [← hmap] at hk
        rcases List.mem_cons.mp hk with hh | hh
        · exact absurd hh (by simp)
        · exact segLists_end v hev s' hs' k hh
      · exact segListsElems_end rest (i + 1) h2 s h'
end

theorem path_norm_id (s : List Seg)
    (hkeys : ∀ k, Seg.key k ∈ s → keyEndOK k = true) :
    normalizePath ("$" ++ (⟨encSegs s⟩ : String)) = "$" ++ (⟨encSegs s⟩ : String) := by
  have hdat : ("$" ++ (⟨encSegs s⟩ : String)).data = '$' :: encSegs s := by
    rw [String.data_append]
    rfl
  have htrim : jsTrim ("$" ++ (⟨encSegs s⟩ : String)) = "$" ++ (⟨encSegs s⟩ : String) := by
    apply jsTrim_eq_self
    · intro c hc
      rw [hdat] at hc
      simp only [List.head?_cons, Option.some.injEq] at hc
      rw [← hc]
      decide
    · intro c hc
      rw [hdat] at hc
      rw [show '$' :: encSegs s = ['$'] ++ encSegs s from rfl, List.getLast?_append] at hc
      cases hs : (encSegs s).getLast? with
      | none =>
          rw [hs] at hc
          rw [show (Option.none).or (['$'].getLast?) = some '$' from rfl] at hc
          injection hc with hc'
          rw [← hc']
          decide
      | some y =>
          rw [hs] at hc
          rw [show ∀ (o : Option Char), (some y).or o = some y from fun o => rfl] at hc
          injection hc with hc'
          rw [← hc']
          exact encSegs_getLast s hkeys y hs
  have hsd : startsDollar ("$" ++ (⟨encSegs s⟩ : String)) = true := by
    unfold startsDollar
    rw [hdat]
    rfl
  unfold normalizePath
  rw [htrim, hsd]
  simp

/-- C2 (amended): provided the object keys contain neither `.` nor `[`,
are distinct within each object, and do not end in ECMAScript whitespace,
PathMatcher applied to the `path` of any produced node k over the produced
node list returns exactly node k's id. The original unconditional claim is
refuted by `search_roundtrip_cex`: a key ending in a space yields a path
that the trim step of the matcher mangles, so that path is not
findable. -/
theorem search_roundtrip (d : Bool) (v : JsonValue)
    (h1 : buildSafe v = true) (h2 : endSafe v = true)
    (k : Nat) (hk : k < (createTree d v).1.length) :
    pathMatcherId (((createTree d v).1.get ⟨k, hk⟩).data.path) (createTree d v).1 =
      some (((createTree d v).1.get ⟨k, hk⟩).id) := by
  have hmem : ((createTree d v).1.get ⟨k, hk⟩).data.path ∈
      (createTree d v).1.map (fun n => n.data.path) :=
    List.mem_map.mpr ⟨_, List.get_mem _ k hk, rfl⟩
  have hmem2 : ((createTree d v).1.get ⟨k, hk⟩).data.path ∈
      (segListsOf v).map (fun s => "$" ++ (⟨encSegs s⟩ : String)) := by
    rw [← paths_traverse d v none "root" "$" 0]
    exact hmem
  obtain ⟨s, hs, hpath⟩ := List.mem_map.mp hmem2
  have hnorm : normalizePath (((createTree d v).1.get ⟨k, hk⟩).data.path) =
      ((createTree d v).1.get ⟨k, hk⟩).data.path := by
    rw [← hpath]
    exact path_norm_id s (segLists_end v h2 s hs)
  unfold pathMatcherId
  simp only [hnorm]
  rw [find_get_nodup (createTree d v).1 k hk (path_uniqueness d v h1)]
  rfl

/-- Witness for the amended round-trip theorem: on `{"a": null}`, the
path of node 1 is independently findable and yields node 1's id. -/
theorem search_roundtrip_witness :
    pathMatcherId
        (((createTree true (JsonValue.obj [("a", JsonValue.prim JPrim.jnull)])).1.get
          ⟨1, by decide⟩).data.path)
        (createTree true (JsonValue.obj [("a", JsonValue.prim JPrim.jnull)])).1 =
      some (((createTree true (JsonValue.obj [("a", JsonValue.prim JPrim.jnull)])).1.get
        ⟨1, by decide⟩).id) :=
  search_roundtrip true (JsonValue.obj [("a", JsonValue.prim JPrim.jnull)])
    (by decide) (by decide) 1 (by decide)

/-- Counterexample to C2 as stated: on `{"a ": null}` (key with a trailing
space) node 1 has path `$.a ` but PathMatcher trims the search string, so
searching that exact path finds nothing at all, rather than node 1. -/
theorem search_roundtrip_cex :
    (((createTree true (JsonValue.obj [("a ", JsonValue.prim JPrim.jnull)])).1.get
        ⟨1, by decide⟩).data.path = "$.a ") ∧
    pathMatcherId "$.a "
        (createTree true (JsonValue.obj [("a ", JsonValue.prim JPrim.jnull)])).1 = none := by
  constructor
  · decide
  · decide

/-! ## Claim C5: the layered layout. First, algebra of the pointwise
level-structure merge. -/

theorem joinLevels_nil_left (m : List (List String)) : joinLevels [] m = m := by
  cases m <;> rfl

theorem joinLevels_nil_right (ls : List (List String)) : joinLevels ls [] = ls := by
  cases ls <;> rfl

theorem joinLevels_cons (l m : List String) (ls ms : List (List String)) :
    joinLevels (l :: ls) (m :: ms) = (l ++ m) :: joinLevels ls ms := rfl

theorem joinLevels_assoc (a : List (List String)) :
    ∀ (b c : List (List String)),
      joinLevels (joinLevels a b) c = joinLevels a (joinLevels b c) := by
  induction a with
  | nil => intro b c; rw [joinLevels_nil_left, joinLevels_nil_left]
  | cons l ls ih =>
      intro b c
      cases b with
      | nil => rw [joinLevels_nil_right, joinLevels_nil_left]
      | cons m ms =>
          cases c with
          | nil => rw [joinLevels_nil_right, joinLevels_nil_right]
          | cons o os =>
              rw [joinLevels_cons, joinLevels_cons, joinLevels_cons, joinLevels_cons,
                ih ms os, List.append_assoc]

theorem joinLevels_replicate (d : Nat) :
    ∀ (A B : List (List String)),
      joinLevels (List.replicate d [] ++ A) (List.replicate d [] ++ B) =
        List.replicate d [] ++ joinLevels A B := by
  induction d with
  | zero => intro A B; rfl
  | succ d' ih =>
      intro A B
      rw [List.replicate_succ, List.cons_append, List.cons_append, List.cons_append,
        joinLevels_cons, ih A B]
      rfl

theorem joinLevels_length (a : List (List String)) :
    ∀ b : List (List String), (joinLevels a b).length = max a.length b.length := by
  induction a with
  | nil => intro b; rw [joinLevels_nil_left]; simp
  | cons l ls ih =>
      intro b
      cases b with
      | nil => rw [joinLevels_nil_right]; simp
      | cons m ms =>
          rw [joinLevels_cons]
          simp only [List.length_cons, ih ms]
          omega

theorem joinLevels_replicate_right (L : List (List String)) :
    ∀ d, d ≤ L.length → joinLevels L (List.replicate d []) = L := by
  induction L with
  | nil =>
      intro d hd
      simp at hd
      rw [hd]
      rfl
  | cons l ls ih =>
      intro d hd
      cases d with
      | zero => rw [List.replicate_zero, joinLevels_nil_right]
      | succ d' =>
          rw [List.replicate_succ, joinLevels_cons, List.append_nil,
            ih d' (by simpa using hd)]

theorem mergeAt_addAt (x : String) :
    ∀ (levels : List (List String)) (d : Nat),
      addAt levels d x = mergeAt levels d [[x]] := by
  intro levels
  induction levels with
  | nil =>
      intro d
      induction d with
      | zero => rfl
      | succ d' ihd =>
          rw [addAt, ihd]
          rw [mergeAt, mergeAt, joinLevels_nil_left, joinLevels_nil_left,
            List.replicate_succ, List.cons_append]
  | cons l ls ih =>
      intro d
      cases d with
      | zero =>
          rw [addAt, mergeAt]
          show (l ++ [x]) :: ls = joinLevels (l :: ls) [[x]]
          rw [joinLevels_cons, joinLevels_nil_right]
      | succ d' =>
          rw [addAt, ih d', mergeAt, mergeAt, List.replicate_succ, List.cons_append,
            joinLevels_cons, List.append_nil]

theorem mergeAt_mergeAt (levels : List (List String)) (d : Nat)
    (L₁ L₂ : List (List String)) :
    mergeAt (mergeAt levels d L₁) d L₂ = mergeAt levels d (joinLevels L₁ L₂) := by
  rw [mergeAt, mergeAt, mergeAt, joinLevels_assoc, joinLevels_replicate]

theorem mergeAt_cons (levels : List (List String)) (d : Nat) (x : String)
    (L : List (List String)) :
    mergeAt levels d ([x] :: L) = mergeAt (addAt levels d x) (d + 1) L := by
  rw [mergeAt_addAt]
  rw [mergeAt, mergeAt, mergeAt, joinLevels_assoc]
  congr 1
  rw [List.replicate_succ', List.append_assoc, joinLevels_replicate]
  rw [show ([[]] : List (List String)) ++ L = [] :: L from rfl]
  rw [show joinLevels [[x]] ([] :: L) = ([x] ++ []) :: joinLevels [] L from rfl]
  rw [joinLevels_nil_left, List.append_nil]

theorem mergeAt_length (levels : List (List String)) (d : Nat)
    (L : List (List String)) : levels.length ≤ (mergeAt levels d L).length := by
  rw [mergeAt, joinLevels_length]
  omega

theorem mergeAt_nil (levels : List (List String)) (d : Nat)
    (h : d ≤ levels.length) : mergeAt levels d [] = levels := by
  rw [mergeAt, List.append_nil, joinLevels_replicate_right levels d h]

theorem addAt_length : ∀ (levels : List (List String)) (d : Nat) (x : String),
    d + 1 ≤ (addAt levels d x).length := by
  intro levels
  induction levels with
  | nil =>
      intro d x
      induction d with
      | zero => simp [addAt]
      | succ d' ihd => rw [addAt]; simpa using ihd
  | cons l ls ih =>
      intro d x
      cases d with
      | zero => simp [addAt]
      | succ d' => rw [addAt]; simpa using ih d' x

mutual
theorem height_le_size (v : JsonValue) : heightJ v ≤ sizeJ v := by
  match v with
  | .obj es =>
      rw [heightJ, sizeJ]
      have := heightEntries_le es
      omega
  | .arr vs =>
      rw [heightJ, sizeJ]
      have := heightElems_le vs
      omega
  | .prim q => rw [heightJ, sizeJ]

theorem heightEntries_le (es : List (String × JsonValue)) :
    heightEntries es ≤ sizeEntries es := by
  match es with
  | [] => rw [heightEntries, sizeEntries]
  | (k, v) :: rest =>
      rw [heightEntries, sizeEntries]
      have h1 := height_le_size v
      have h2 := heightEntries_le rest
      omega

theorem heightElems_le (vs : List JsonValue) :
    heightElems vs ≤ sizeElems vs := by
  match vs with
  | [] => rw [heightElems, sizeElems]
  | v :: rest =>
      rw [heightElems, sizeElems]
      have h1 := height_le_size v
      have h2 := heightElems_le rest
      omega
end

theorem heightJ_pos (v : JsonValue) : 1 ≤ heightJ v := by
  cases v <;> simp [heightJ]

theorem foldl_guard {β : Type} (g : β → RFEdge → β) (p : RFEdge → Bool) :
    ∀ (L : List RFEdge) (init : β),
      L.foldl (fun st e => if p e then g st e else st) init = (L.filter p).foldl g init := by
  intro L
  induction L with
  | nil => intro init; rfl
  | cons e L' ih =>
      intro init
      rw [List.foldl_cons, List.filter_cons]
      by_cases hp : p e
      · rw [if_pos hp, if_pos hp, List.foldl_cons, ih]
      · rw [if_neg hp, if_neg hp, ih]

theorem ne_mkId (a b : Nat) (h : a ≠ b) : mkId a ≠ mkId b :=
  fun hc => h (mkId_inj a b hc)

theorem filter_nil_of_ne (E : List RFEdge) (x : String)
    (h : ∀ e ∈ E, e.source ≠ x) :
    E.filter (fun e => e.source == x) = [] := by
  rw [List.filter_eq_nil_iff]
  intro e he
  simp only [beq_iff_eq]
  exact h e he

theorem filter_child (d : Bool) (v : JsonValue) (q : Nat) (lab p : String)
    (c₁ : Nat) (hq : q < c₁) :
    (traverse d v (some (mkId q)) lab p c₁).2.1.filter (fun e => e.source == mkId q) =
      [{ id := "edge-" ++ mkId q ++ "-" ++ mkId c₁, source := mkId q,
         target := mkId c₁ }] := by
  have hpe : (parentEdges (some (mkId q)) (mkId c₁)).filter (fun e => e.source == mkId q) =
      [{ id := "edge-" ++ mkId q ++ "-" ++ mkId c₁, source := mkId q,
         target := mkId c₁ }] := by
    rw [parentEdges]
    simp
  cases v with
  | obj es =>
      rw [traverse]
      simp only
      rw [List.filter_append, hpe,
        filter_nil_of_ne _ _ (by
          intro e he
          rcases sources_entries d es (mkId c₁) p (c₁ + 1) e he with h | ⟨i, h1, h2, h3⟩
          · rw [h]; exact ne_mkId c₁ q (by omega)
          · rw [h3]; exact ne_mkId i q (by omega)), List.append_nil]
  | arr vs =>
      rw [traverse]
      simp only
      rw [List.filter_append, hpe,
        filter_nil_of_ne _ _ (by
          intro e he
          rcases sources_elems d vs (mkId c₁) p 0 (c₁ + 1) e he with h | ⟨i, h1, h2, h3⟩
          · rw [h]; exact ne_mkId c₁ q (by omega)
          · rw [h3]; exact ne_mkId i q (by omega)), List.append_nil]
  | prim pr =>
      rw [traverse]
      simp only
      exact hpe

theorem filter_root_entries (d : Bool) (es : List (String × JsonValue)) (q : Nat)
    (ppath : String) :
    ∀ (c₁ : Nat), q < c₁ →
    (traverseEntries d es (mkId q) ppath c₁).2.1.filter (fun e => e.source == mkId q) =
      (childCountersEntries es c₁).map (fun i =>
        { id := "edge-" ++ mkId q ++ "-" ++ mkId i, source := mkId q,
          target := mkId i }) := by
  induction es with
  | nil => intro c₁ _; rw [traverseEntries, childCountersEntries]; rfl
  | cons kv rest ih =>
      obtain ⟨k, v⟩ := kv
      intro c₁ hq
      rw [traverseEntries, childCountersEntries]
      simp only
      rw [List.filter_append, filter_child d v q k (ppath ++ "." ++ k) c₁ hq,
        counter_traverse d v (some (mkId q)) k (ppath ++ "." ++ k) c₁,
        ih (c₁ + sizeJ v) (by have := sizeJ_pos v; omega), List.map_cons]
      rfl

theorem filter_root_elems (d : Bool) (vs : List JsonValue) (q : Nat)
    (ppath : String) :
    ∀ (idx c₁ : Nat), q < c₁ →
    (traverseElems d vs (mkId q) ppath idx c₁).2.1.filter (fun e => e.source == mkId q) =
      (childCountersElems vs c₁).map (fun i =>
        { id := "edge-" ++ mkId q ++ "-" ++ mkId i, source := mkId q,
          target := mkId i }) := by
  induction vs with
  | nil => intro idx c₁ _; rw [traverseElems, childCountersElems]; rfl
  | cons v rest ih =>
      intro idx c₁ hq
      rw [traverseElems, childCountersElems]
      simp only
      rw [List.filter_append,
        filter_child d v q ("[" ++ natStr idx ++ "]")
          (ppath ++ "[" ++ natStr idx ++ "]") c₁ hq,
        counter_traverse d v (some (mkId q)) ("[" ++ natStr idx ++ "]")
          (ppath ++ "[" ++ natStr idx ++ "]") c₁,
        ih (idx + 1) (c₁ + sizeJ v) (by have := sizeJ_pos v; omega), List.map_cons]
      rfl

mutual
theorem ML_traverse (d : Bool) (v : JsonValue) (popt : Option String)
    (lab path : String) (c : Nat) (E E₁ E₂ : List RFEdge)
    (vis : List String) (levels : List (List String)) (dep fuel : Nat)
    (hE : E = E₁ ++ (traverse d v popt lab path c).2.1 ++ E₂)
    (hfuel : heightJ v ≤ fuel)
    (hout : ∀ e ∈ E₁ ++ E₂, ∀ i, c ≤ i → i < c + sizeJ v → e.source ≠ mkId i)
    (hpar : ∀ pp, popt = some pp → ∀ i, c ≤ i → i < c + sizeJ v → pp ≠ mkId i)
    (hvis : ∀ i, c ≤ i → i < c + sizeJ v → mkId i ∉ vis) :
    findLevel E fuel vis levels (mkId c) dep =
      ((((List.range' c (sizeJ v)).map mkId).reverse) ++ vis,
        mergeAt levels dep (levelsOf v c)) := by
  have hszpos := sizeJ_pos v
  have hcvis : mkId c ∉ vis := hvis c (le_refl c) (by omega)
  have hpef : (parentEdges popt (mkId c)).filter (fun e => e.source == mkId c) = [] := by
    match popt with
    | none => rfl
    | some pp =>
        rw [parentEdges]
        have : pp ≠ mkId c := hpar pp rfl c (le_refl c) (by omega)
        simp [this]
  have hE₁f : E₁.filter (fun e => e.source == mkId c) = [] :=
    filter_nil_of_ne E₁ _ (fun e he =>
      hout e (List.mem_append_left _ he) c (le_refl c) (by omega))
  have hE₂f : E₂.filter (fun e => e.source == mkId c) = [] :=
    filter_nil_of_ne E₂ _ (fun e he =>
      hout e (List.mem_append_right _ he) c (le_refl c) (by omega))
  match v with
  | .obj es =>
      obtain ⟨f, rfl⟩ : ∃ f, fuel = f + 1 :=
        ⟨fuel - 1, by have := heightJ_pos (JsonValue.obj es); omega⟩
      rw [findLevel, if_neg hcvis]
      have hguard := foldl_guard
        (fun st e => findLevel E f st.1 st.2 e.target (dep + 1))
        (fun e => e.source == mkId c) E
        (mkId c :: vis, addAt levels dep (mkId c))
      rw [hguard]
      have ht : (traverse d (JsonValue.obj es) popt lab path c).2.1 =
          parentEdges popt (mkId c) ++ (traverseEntries d es (mkId c) path (c + 1)).2.1 := by
        rw [traverse]
      have hfilt : E.filter (fun e => e.source == mkId c) =
          (childCountersEntries es (c + 1)).map (fun i =>
            { id := "edge-" ++ mkId c ++ "-" ++ mkId i, source := mkId c,
              target := mkId i }) := by
        rw [hE, List.filter_append, List.filter_append, ht, List.filter_append,
          hE₁f, hE₂f, hpef,
          filter_root_entries d es c path (c + 1) (by omega)]
        simp
      rw [hfilt]
      have hml := ML_entries d es c path (c + 1) E
        (E₁ ++ parentEdges popt (mkId c)) E₂
        (mkId c :: vis) (addAt levels dep (mkId c)) dep f
        (by rw [hE, ht]; simp [List.append_assoc])
        (by rw [heightJ] at hfuel; omega)
        (by omega)
        (by
          intro e he i hi1 hi2
          rcases List.mem_append.mp he with he' | he'
          · rcases List.mem_append.mp he' with he'' | he''
            · exact hout e (List.mem_append_left _ he'') i (by omega)
                (by rw [sizeJ]; omega)
            · match popt, he'' with
              | some pp, he'' =>
                  rw [parentEdges] at he''
                  simp only [List.mem_singleton] at he''
                  rw [he'']
                  exact hpar pp rfl i (by omega) (by rw [sizeJ]; omega)
          · exact hout e (List.mem_append_right _ he') i (by omega)
              (by rw [sizeJ]; omega))
        (by
          intro i hi1 hi2
          rw [List.mem_cons]
          push_neg
          refine ⟨ne_mkId i c (by omega), ?_⟩
          exact hvis i (by omega) (by rw [sizeJ]; omega))
        (addAt_length levels dep (mkId c))
      rw [hml]
      rw [sizeJ, levelsOf]
      rw [mergeAt_cons levels dep (mkId c) (levelsOfEntries es (c + 1))]
      rw [Nat.add_comm 1 (sizeEntries es), List.range'_succ, List.map_cons,
        List.reverse_cons, List.append_assoc]
      rfl
  | .arr vs =>
      obtain ⟨f, rfl⟩ : ∃ f, fuel = f + 1 :=
        ⟨fuel - 1, by have := heightJ_pos (JsonValue.arr vs); omega⟩
      rw [findLevel, if_neg hcvis]
      have hguard := foldl_guard
        (fun st e => findLevel E f st.1 st.2 e.target (dep + 1))
        (fun e => e.source == mkId c) E
        (mkId c :: vis, addAt levels dep (mkId c))
      rw [hguard]
      have ht : (traverse d (JsonValue.arr vs) popt lab path c).2.1 =
          parentEdges popt (mkId c) ++ (traverseElems d vs (mkId c) path 0 (c + 1)).2.1 := by
        rw [traverse]
      have hfilt : E.filter (fun e => e.source == mkId c) =
          (childCountersElems vs (c + 1)).map (fun i =>
            { id := "edge-" ++ mkId c ++ "-" ++ mkId i, source := mkId c,
              target := mkId i }) := by
        rw [hE, List.filter_append, List.filter_append, ht, List.filter_append,
          hE₁f, hE₂f, hpef,
          filter_root_elems d vs c path 0 (c + 1) (by omega)]
        simp
      rw [hfilt]
      have hml := ML_elems d vs c path 0 (c + 1) E
        (E₁ ++ parentEdges popt (mkId c)) E₂
        (mkId c :: vis) (addAt levels dep (mkId c)) dep f
        (by rw [hE, ht]; simp [List.append_assoc])
        (by rw [heightJ] at hfuel; omega)
        (by omega)
        (by
          intro e he i hi1 hi2
          rcases List.mem_append.mp he with he' | he'
          · rcases List.mem_append.mp he' with he'' | he''
            · exact hout e (List.mem_append_left _ he'') i (by omega)
                (by rw [sizeJ]; omega)
            · match popt, he'' with
              | some pp, he'' =>
                  rw [parentEdges] at he''
                  simp only [List.mem_singleton] at he''
                  rw [he'']
                  exact hpar pp rfl i (by omega) (by rw [sizeJ]; omega)
          · exact hout e (List.mem_append_right _ he') i (by omega)
              (by rw [sizeJ]; omega))
        (by
          intro i hi1 hi2
          rw [List.mem_cons]
          push_neg
          refine ⟨ne_mkId i c (by omega), ?_⟩
          exact hvis i (by omega) (by rw [sizeJ]; omega))
        (addAt_length levels dep (mkId c))
      rw [hml]
      rw [sizeJ, levelsOf]
      rw [mergeAt_cons levels dep (mkId c) (levelsOfElems vs (c + 1))]
      rw [Nat.add_comm 1 (sizeElems vs), List.range'_succ, List.map_cons,
        List.reverse_cons, List.append_assoc]
      rfl
  | .prim pr =>
      obtain ⟨f, rfl⟩ : ∃ f, fuel = f + 1 :=
        ⟨fuel - 1, by have := heightJ_pos (JsonValue.prim pr); omega⟩
      rw [findLevel, if_neg hcvis]
      have hguard := foldl_guard
        (fun st e => findLevel E f st.1 st.2 e.target (dep + 1))
        (fun e => e.source == mkId c) E
        (mkId c :: vis, addAt levels dep (mkId c))
      rw [hguard]
      have ht : (traverse d (JsonValue.prim pr) popt lab path c).2.1 =
          parentEdges popt (mkId c) := by
        rw [traverse]
      have hfilt : E.filter (fun e => e.source == mkId c) = [] := by
        rw [hE, List.filter_append, List.filter_append, ht, hE₁f, hE₂f, hpef]
        rfl
      rw [hfilt, List.foldl_nil]
      rw [sizeJ, levelsOf, List.range'_one, mergeAt_addAt]
      rfl

theorem ML_entries (d : Bool) (es : List (String × JsonValue)) (rootc : Nat)
    (ppath : String) (c₁ : Nat) (E E₁ E₂ : List RFEdge)
    (vis : List String) (levels : List (List String)) (dep fuel : Nat)
    (hE : E = E₁ ++ (traverseEntries d es (mkId rootc) ppath c₁).2.1 ++ E₂)
    (hfuel : heightEntries es ≤ fuel)
    (hroot : rootc < c₁)
    (hout : ∀ e ∈ E₁ ++ E₂, ∀ i, c₁ ≤ i → i < c₁ + sizeEntries es → e.source ≠ mkId i)
    (hvis : ∀ i, c₁ ≤ i → i < c₁ + sizeEntries es → mkId i ∉ vis)
    (hlen : dep + 1 ≤ levels.length) :
    List.foldl
      (fun (st : List String × List (List String)) (e : RFEdge) =>
        findLevel E fuel st.1 st.2 e.target (dep + 1))
      (vis, levels)
      ((childCountersEntries es c₁).map (fun i =>
        ({ id := "edge-" ++ mkId rootc ++ "-" ++ mkId i, source := mkId rootc,
           target := mkId i } : RFEdge)))
    = ((((List.range' c₁ (sizeEntries es)).map mkId).reverse) ++ vis,
        mergeAt levels (dep + 1) (levelsOfEntries es c₁)) := by
  match es with
  | [] =>
      rw [childCountersEntries, sizeEntries, levelsOfEntries]
      rw [List.map_nil, List.foldl_nil, List.range'_zero, List.map_nil,
        List.reverse_nil, List.nil_append, mergeAt_nil levels (dep + 1) hlen]
  | (k, v) :: rest =>
      rw [heightEntries, Nat.max_le] at hfuel
      have hszpos := sizeJ_pos v
      have hEdec : (traverseEntries d ((k, v) :: rest) (mkId rootc) ppath c₁).2.1 =
          (traverse d v (some (mkId rootc)) k (ppath ++ "." ++ k) c₁).2.1 ++
          (traverseEntries d rest (mkId rootc) ppath (c₁ + sizeJ v)).2.1 := by
        rw [traverseEntries]
        simp only
        rw [counter_traverse]
      rw [childCountersEntries, List.map_cons, List.foldl_cons]
      have hstep := ML_traverse d v (some (mkId rootc)) k (ppath ++ "." ++ k) c₁
        E E₁ ((traverseEntries d rest (mkId rootc) ppath (c₁ + sizeJ v)).2.1 ++ E₂)
        vis levels (dep + 1) fuel
        (by rw [hE, hEdec]; simp [List.append_assoc])
        hfuel.1
        (by
          intro e he i hi1 hi2
          rcases List.mem_append.mp he with he' | he'
          · exact hout e (List.mem_append_left _ he') i hi1
              (by rw [sizeEntries]; omega)
          · rcases List.mem_append.mp he' with he'' | he''
            · rcases sources_entries d rest (mkId rootc) ppath (c₁ + sizeJ v) e he''
                with h | ⟨j, hj1, hj2, hj3⟩
              · rw [h]; exact ne_mkId rootc i (by omega)
              · rw [hj3]; exact ne_mkId j i (by omega)
            · exact hout e (List.mem_append_right _ he'') i hi1
                (by rw [sizeEntries]; omega))
        (by
          intro pp hpp i hi1 hi2
          injection hpp with hpp'
          rw [← hpp']
          exact ne_mkId rootc i (by omega))
        (by
          intro i hi1 hi2
          exact hvis i hi1 (by rw [sizeEntries]; omega))
      simp only
      rw [hstep]
      have hrest := ML_entries d rest rootc ppath (c₁ + sizeJ v) E
        (E₁ ++ (traverse d v (some (mkId rootc)) k (ppath ++ "." ++ k) c₁).2.1) E₂
        ((((List.range' c₁ (sizeJ v)).map mkId).reverse) ++ vis)
        (mergeAt levels (dep + 1) (levelsOf v c₁)) dep fuel
        (by rw [hE, hEdec]; simp [List.append_assoc])
        hfuel.2
        (by omega)
        (by
          intro e he i hi1 hi2
          rcases List.mem_append.mp he with he' | he'
          · rcases List.mem_append.mp he' with he'' | he''
            · exact hout e (List.mem_append_left _ he'') i (by omega)
                (by rw [sizeEntries]; omega)
            · rcases sources_traverse d v (some (mkId rootc)) k (ppath ++ "." ++ k) c₁
                e he'' with ⟨q, hq, hs⟩ | ⟨j, hj1, hj2, hj3⟩
              · injection hq with hq'
                rw [hs, ← hq']
                exact ne_mkId rootc i (by omega)
              · rw [hj3]; exact ne_mkId j i (by omega)
          · exact hout e (List.mem_append_right _ he') i (by omega)
              (by rw [sizeEntries]; omega))
        (by
          intro i hi1 hi2
          rw [List.mem_append]
          push_neg
          constructor
          · intro hmem
            rw [List.mem_reverse] at hmem
            obtain ⟨j, hj, hji⟩ := List.mem_map.mp hmem
            have := List.mem_range'_1.mp hj
            have : j = i := mkId_inj j i hji
            omega
          · exact hvis i (by omega) (by rw [sizeEntries]; omega))
        (le_trans hlen (mergeAt_length levels (dep + 1) (levelsOf v c₁)))
      rw [hrest]
      rw [mergeAt_mergeAt, sizeEntries, levelsOfEntries]
      have hsplit : List.range' c₁ (sizeJ v) ++
          List.range' (c₁ + sizeJ v) (sizeEntries rest) =
          List.range' c₁ (sizeJ v + sizeEntries rest) := by
        rw [List.range'_append_1, Nat.add_comm]
      rw [← hsplit, List.map_append, List.reverse_append, List.append_assoc]

theorem ML_elems (d : Bool) (vs : List JsonValue) (rootc : Nat)
    (ppath : String) (idx c₁ : Nat) (E E₁ E₂ : List RFEdge)
    (vis : List String) (levels : List (List String)) (dep fuel : Nat)
    (hE : E = E₁ ++ (traverseElems d vs (mkId rootc) ppath idx c₁).2.1 ++ E₂)
    (hfuel : heightElems vs ≤ fuel)
    (hroot : rootc < c₁)
    (hout : ∀ e ∈ E₁ ++ E₂, ∀ i, c₁ ≤ i → i < c₁ + sizeElems vs → e.source ≠ mkId i)
    (hvis : ∀ i, c₁ ≤ i → i < c₁ + sizeElems vs → mkId i ∉ vis)
    (hlen : dep + 1 ≤ levels.length) :
    List.foldl
      (fun (st : List String × List (List String)) (e : RFEdge) =>
        findLevel E fuel st.1 st.2 e.target (dep + 1))
      (vis, levels)
      ((childCountersElems vs c₁).map (fun i =>
        ({ id := "edge-" ++ mkId rootc ++ "-" ++ mkId i, source := mkId rootc,
           target := mkId i } : RFEdge)))
    = ((((List.range' c₁ (sizeElems vs)).map mkId).reverse) ++ vis,
        mergeAt levels (dep + 1) (levelsOfElems vs c₁)) := by
  match vs with
  | [] =>
      rw [childCountersElems, sizeElems, levelsOfElems]
      rw [List.map_nil, List.foldl_nil, List.range'_zero, List.map_nil,
        List.reverse_nil, List.nil_append, mergeAt_nil levels (dep + 1) hlen]
  | v :: rest =>
      rw [heightElems, Nat.max_le] at hfuel
      have hszpos := sizeJ_pos v
      have hEdec : (traverseElems d (v :: rest) (mkId rootc) ppath idx c₁).2.1 =
          (traverse d v (some (mkId rootc)) ("[" ++ natStr idx ++ "]")
            (ppath ++ "[" ++ natStr idx ++ "]") c₁).2.1 ++
          (traverseElems d rest (mkId rootc) ppath (idx + 1) (c₁ + sizeJ v)).2.1 := by
        rw [traverseElems]
        simp only
        rw [counter_traverse]
      rw [childCountersElems, List.map_cons, List.foldl_cons]
      have hstep := ML_traverse d v (some (mkId rootc)) ("[" ++ natStr idx ++ "]")
        (ppath ++ "[" ++ natStr idx ++ "]") c₁
        E E₁ ((traverseElems d rest (mkId rootc) ppath (idx + 1) (c₁ + sizeJ v)).2.1 ++ E₂)
        vis levels (dep + 1) fuel
        (by rw [hE, hEdec]; simp [List.append_assoc])
        hfuel.1
        (by
          intro e he i hi1 hi2
          rcases List.mem_append.mp he with he' | he'
          · exact hout e (List.mem_append_left _ he') i hi1
              (by rw [sizeElems]; omega)
          · rcases List.mem_append.mp he' with he'' | he''
            · rcases sources_elems d rest (mkId rootc) ppath (idx + 1) (c₁ + sizeJ v) e he''
                with h | ⟨j, hj1, hj2, hj3⟩
              · rw [h]; exact ne_mkId rootc i (by omega)
              · rw [hj3]; exact ne_mkId j i (by omega)
            · exact hout e (List.mem_append_right _ he'') i hi1
                (by rw [sizeElems]; omega))
        (by
          intro pp hpp i hi1 hi2
          injection hpp with hpp'
          rw [← hpp']
          exact ne_mkId rootc i (by omega))
        (by
          intro i hi1 hi2
          exact hvis i hi1 (by rw [sizeElems]; omega))
      simp only
      rw [hstep]
      have hrest := ML_elems d rest rootc ppath (idx + 1) (c₁ + sizeJ v) E
        (E₁ ++ (traverse d v (some (mkId rootc)) ("[" ++ natStr idx ++ "]")
          (ppath ++ "[" ++ natStr idx ++ "]") c₁).2.1) E₂
        ((((List.range' c₁ (sizeJ v)).map mkId).reverse) ++ vis)
        (mergeAt levels (dep + 1) (levelsOf v c₁)) dep fuel
        (by rw [hE, hEdec]; simp [List.append_assoc])
        hfuel.2
        (by omega)
        (by
          intro e he i hi1 hi2
          rcases List.mem_append.mp he with he' | he'
          · rcases List.mem_append.mp he' with he'' | he''
            · exact hout e (List.mem_append_left _ he'') i (by omega)
                (by rw [sizeElems]; omega)
            · rcases sources_traverse d v (some (mkId rootc)) ("[" ++ natStr idx ++ "]")
                (ppath ++ "[" ++ natStr idx ++ "]") c₁ e he''
                with ⟨q, hq, hs⟩ | ⟨j, hj1, hj2, hj3⟩
              · injection hq with hq'
                rw [hs, ← hq']
                exact ne_mkId rootc i (by omega)
              · rw [hj3]; exact ne_mkId j i (by omega)
          · exact hout e (List.mem_append_right _ he') i (by omega)
              (by rw [sizeElems]; omega))
        (by
          intro i hi1 hi2
          rw [List.mem_append]
          push_neg
          constructor
          · intro hmem
            rw [List.mem_reverse] at hmem
            obtain ⟨j, hj, hji⟩ := List.mem_map.mp hmem
            have := List.mem_range'_1.mp hj
            have : j = i := mkId_inj j i hji
            omega
          · exact hvis i (by omega) (by rw [sizeElems]; omega))
        (le_trans hlen (mergeAt_length levels (dep + 1) (levelsOf v c₁)))
      rw [hrest]
      rw [mergeAt_mergeAt, sizeElems, levelsOfElems]
      have hsplit : List.range' c₁ (sizeJ v) ++
          List.range' (c₁ + sizeJ v) (sizeElems rest) =
          List.range' c₁ (sizeJ v + sizeElems rest) := by
        rw [List.range'_append_1, Nat.add_comm]
      rw [← hsplit, List.map_append, List.reverse_append, List.append_assoc]
end

theorem findLevel_createTree (d : Bool) (v : JsonValue) :
    findLevel (createTree d v).2 ((createTree d v).1.length) [] [] (mkId 0) 0 =
      ((((List.range' 0 (sizeJ v)).map mkId).reverse), levelsOf v 0) := by
  have hlen : (createTree d v).1.length = sizeJ v :=
    length_traverse d v none "root" "$" 0
  have h := ML_traverse d v none "root" "$" 0 ((createTree d v).2) [] []
    [] [] 0 ((createTree d v).1.length)
    (by
      show (createTree d v).2 = [] ++ (traverse d v none "root" "$" 0).2.1 ++ []
      rw [List.nil_append, List.append_nil]
      rfl)
    (by rw [hlen]; exact height_le_size v)
    (by intro e he; simp at he)
    (by intro pp hpp; exact absurd hpp (by simp))
    (by intro i _ _; simp)
  rw [h, List.append_nil]
  rw [show mergeAt [] 0 (levelsOf v 0) = levelsOf v 0 from by
    rw [mergeAt, List.replicate_zero, List.nil_append, joinLevels_nil_left]]

theorem root_found (d : Bool) (v : JsonValue) :
    (createTree d v).1.find?
        (fun n => !((createTree d v).2.any (fun e => e.target == n.id))) =
      some (mkNode d 0 v "root" "$" none) := by
  have hh := head_traverse d v none "root" "$" 0
  rw [show (createTree d v).1 = (traverse d v none "root" "$" 0).1 from rfl, hh]
  apply List.find?_cons_of_pos
  have hany : (createTree d v).2.any
      (fun e => e.target == (mkNode d 0 v "root" "$" none).id) = false := by
    by_contra hc
    rw [Bool.not_eq_false] at hc
    obtain ⟨e, he, hbeq⟩ := List.any_eq_true.mp hc
    rw [beq_iff_eq] at hbeq
    have hmem : e.target ∈ (createTree d v).2.map (fun e => e.target) :=
      List.mem_map.mpr ⟨e, he, rfl⟩
    rw [targets_createTree] at hmem
    obtain ⟨i, hi, hmk⟩ := List.mem_map.mp hmem
    have h0 : i = 0 := mkId_inj i 0 (by rw [hmk, hbeq]; rfl)
    have := List.mem_range'_1.mp hi
    omega
  rw [hany]
  rfl

theorem layout_eq_spec (d : Bool) (v : JsonValue) :
    layoutNodes (createTree d v).1 (createTree d v).2 =
      (createTree d v).1.map (applyPos (levelsOf v 0)) := by
  rw [layoutNodes]
  simp only [root_found d v]
  rw [show (mkNode d 0 v "root" "$" none).id = mkId 0 from rfl]
  rw [findLevel_createTree d v]

theorem idxOf_isSome_of_mem (id : String) :
    ∀ (l : List String), id ∈ l → (idxOf l id).isSome = true := by
  intro l
  induction l with
  | nil => intro h; simp at h
  | cons x xs ih =>
      intro h
      rw [idxOf]
      by_cases hx : x = id
      · rw [if_pos hx]; rfl
      · rw [if_neg hx]
        rcases List.mem_cons.mp h with h' | h'
        · exact absurd h'.symm hx
        · have := ih h'
          cases hidx : idxOf xs id with
          | none => rw [hidx] at this; simp at this
          | some j => rfl


theorem posOfAux_isSome_of_mem (id : String) :
    ∀ (L : List (List String)) (n d0 : Nat), id ∈ L.getD n [] →
      (posOfAux id L d0).isSome = true := by
  intro L
  induction L with
  | nil => intro n d0 h; simp [List.getD] at h
  | cons l ls ih =>
      intro n d0 h
      rw [posOfAux]
      cases hidx : idxOf l id with
      | some i => rfl
      | none =>
          cases n with
          | zero =>
              rw [List.getD_cons_zero] at h
              have := idxOf_isSome_of_mem id l h
              rw [hidx] at this
              simp at this
          | succ n' =>
              rw [List.getD_cons_succ] at h
              exact ih n' (d0 + 1) h

theorem joinLevels_getD (a : List (List String)) :
    ∀ (b : List (List String)) (n : Nat),
      (joinLevels a b).getD n [] = a.getD n [] ++ b.getD n [] := by
  induction a with
  | nil =>
      intro b n
      rw [joinLevels_nil_left]
      simp [List.getD]
  | cons l ls ih =>
      intro b n
      cases b with
      | nil =>
          rw [joinLevels_nil_right]
          simp [List.getD]
      | cons m ms =>
          rw [joinLevels_cons]
          cases n with
          | zero => simp
          | succ n' => simp only [List.getD_cons_succ]; exact ih ms n'

mutual
theorem mem_levelsOf (v : JsonValue) :
    ∀ (c i : Nat), c ≤ i → i < c + sizeJ v →
      ∃ n, mkId i ∈ (levelsOf v c).getD n [] := by
  match v with
  | .obj es =>
      intro c i hi1 hi2
      by_cases hc : i = c
      · exact ⟨0, by rw [levelsOf, List.getD_cons_zero, hc]; simp⟩
      · obtain ⟨n, hn⟩ := mem_levelsOfEntries es (c + 1) i (by omega)
          (by rw [sizeJ] at hi2; omega)
        exact ⟨n + 1, by rw [levelsOf, List.getD_cons_succ]; exact hn⟩
  | .arr vs =>
      intro c i hi1 hi2
      by_cases hc : i = c
      · exact ⟨0, by rw [levelsOf, List.getD_cons_zero, hc]; simp⟩
      · obtain ⟨n, hn⟩ := mem_levelsOfElems vs (c + 1) i (by omega)
          (by rw [sizeJ] at hi2; omega)
        exact ⟨n + 1, by rw [levelsOf, List.getD_cons_succ]; exact hn⟩
  | .prim q =>
      intro c i hi1 hi2
      rw [sizeJ] at hi2
      have : i = c := by omega
      exact ⟨0, by rw [levelsOf, List.getD_cons_zero, this]; simp⟩

theorem mem_levelsOfEntries (es : List (String × JsonValue)) :
    ∀ (c₁ i : Nat), c₁ ≤ i → i < c₁ + sizeEntries es →
      ∃ n, mkId i ∈ (levelsOfEntries es c₁).getD n [] := by
  match es with
  | [] =>
      intro c₁ i hi1 hi2
      rw [sizeEntries] at hi2
      omega
  | (k, v) :: rest =>
      intro c₁ i hi1 hi2
      rw [sizeEntries] at hi2
      by_cases hv : i < c₁ + sizeJ v
      · obtain ⟨n, hn⟩ := mem_levelsOf v c₁ i hi1 hv
        exact ⟨n, by
          rw [levelsOfEntries, joinLevels_getD]
          exact List.mem_append_left _ hn⟩
      · obtain ⟨n, hn⟩ := mem_levelsOfEntries rest (c₁ + sizeJ v) i (by omega) (by omega)
        exact ⟨n, by
          rw [levelsOfEntries, joinLevels_getD]
          exact List.mem_append_right _ hn⟩

theorem mem_levelsOfElems (vs : List JsonValue) :
    ∀ (c₁ i : Nat), c₁ ≤ i → i < c₁ + sizeElems vs →
      ∃ n, mkId i ∈ (levelsOfElems vs c₁).getD n [] := by
  match vs with
  | [] =>
      intro c₁ i hi1 hi2
      rw [sizeElems] at hi2
      omega
  | v :: rest =>
      intro c₁ i hi1 hi2
      rw [sizeElems] at hi2
      by_cases hv : i < c₁ + sizeJ v
      · obtain ⟨n, hn⟩ := mem_levelsOf v c₁ i hi1 hv
        exact ⟨n, by
          rw [levelsOfElems, joinLevels_getD]
          exact List.mem_append_left _ hn⟩
      · obtain ⟨n, hn⟩ := mem_levelsOfElems rest (c₁ + sizeJ v) i (by omega) (by omega)
        exact ⟨n, by
          rw [levelsOfElems, joinLevels_getD]
          exact List.mem_append_right _ hn⟩
end

mutual
theorem depthList_length (v : JsonValue) : (depthList v).length = sizeJ v := by
  match v with
  | .obj es =>
      rw [depthList, sizeJ]
      simp only [List.length_cons, List.length_map, depthListEntries_length es]
      omega
  | .arr vs =>
      rw [depthList, sizeJ]
      simp only [List.length_cons, List.length_map, depthListElems_length vs]
      omega
  | .prim q => rw [depthList, sizeJ]; rfl

theorem depthListEntries_length (es : List (String × JsonValue)) :
    (depthListEntries es).length = sizeEntries es := by
  match es with
  | [] => rw [depthListEntries, sizeEntries]; rfl
  | (k, v) :: rest =>
      rw [depthListEntries, sizeEntries]
      simp only [List.length_append, depthList_length v, depthListEntries_length rest]

theorem depthListElems_length (vs : List JsonValue) :
    (depthListElems vs).length = sizeElems vs := by
  match vs with
  | [] => rw [depthListElems, sizeElems]; rfl
  | v :: rest =>
      rw [depthListElems, sizeElems]
      simp only [List.length_append, depthList_length v, depthListElems_length rest]
end

theorem zip_filter_shift (A : List String) :
    ∀ (B : List Nat) (lev : Nat),
      ((A.zip (B.map (fun x => x + 1))).filterMap
        (fun p => if p.2 = lev + 1 then some p.1 else none)) =
      ((A.zip B).filterMap (fun p => if p.2 = lev then some p.1 else none)) := by
  induction A with
  | nil => intro B lev; simp
  | cons a A' ih =>
      intro B lev
      cases B with
      | nil => simp
      | cons b B' =>
          rw [List.map_cons, List.zip_cons_cons, List.zip_cons_cons,
            List.filterMap_cons, List.filterMap_cons]
          by_cases hb : b = lev
          · rw [if_pos (by simpa using hb), if_pos hb, ih B' lev]
          · rw [if_neg (by simpa using hb), if_neg hb, ih B' lev]

theorem zip_filter_zero (A : List String) :
    ∀ (B : List Nat),
      ((A.zip (B.map (fun x => x + 1))).filterMap
        (fun p => if p.2 = 0 then some p.1 else none)) = [] := by
  induction A with
  | nil => intro B; simp
  | cons a A' ih =>
      intro B
      cases B with
      | nil => simp
      | cons b B' =>
          rw [List.map_cons, List.zip_cons_cons, List.filterMap_cons,
            if_neg (by omega), ih B']

mutual
theorem levelsOf_getD (v : JsonValue) :
    ∀ (c lev : Nat), (levelsOf v c).getD lev [] = levelIdsAt v c lev := by
  match v with
  | .obj es =>
      intro c lev
      rw [levelIdsAt, depthList, sizeJ, Nat.add_comm 1 (sizeEntries es),
        List.range'_succ, List.map_cons, List.zip_cons_cons, List.filterMap_cons]
      cases lev with
      | zero =>
          rw [if_pos rfl, levelsOf, List.getD_cons_zero, zip_filter_zero]
      | succ lev' =>
          rw [if_neg (by omega), levelsOf, List.getD_cons_succ, zip_filter_shift]
          exact levelsOfEntries_getD es (c + 1) lev'
  | .arr vs =>
      intro c lev
      rw [levelIdsAt, depthList, sizeJ, Nat.add_comm 1 (sizeElems vs),
        List.range'_succ, List.map_cons, List.zip_cons_cons, List.filterMap_cons]
      cases lev with
      | zero =>
          rw [if_pos rfl, levelsOf, List.getD_cons_zero, zip_filter_zero]
      | succ lev' =>
          rw [if_neg (by omega), levelsOf, List.getD_cons_succ, zip_filter_shift]
          exact levelsOfElems_getD vs (c + 1) lev'
  | .prim q =>
      intro c lev
      rw [levelIdsAt, depthList, sizeJ, List.range'_one, levelsOf]
      cases lev with
      | zero => simp
      | succ lev' => simp [List.getD]

theorem levelsOfEntries_getD (es : List (String × JsonValue)) :
    ∀ (c₁ lev : Nat), (levelsOfEntries es c₁).getD lev [] =
      (((List.range' c₁ (sizeEntries es)).map mkId).zip (depthListEntries es)).filterMap
        (fun p => if p.2 = lev then some p.1 else none) := by
  match es with
  | [] =>
      intro c₁ lev
      rw [levelsOfEntries, sizeEntries, depthListEntries]
      simp [List.getD]
  | (k, v) :: rest =>
      intro c₁ lev
      rw [levelsOfEntries, joinLevels_getD, levelsOf_getD v c₁ lev,
        levelsOfEntries_getD rest (c₁ + sizeJ v) lev,
        levelIdsAt, sizeEntries, depthListEntries]
      have hsplit : List.range' c₁ (sizeJ v + sizeEntries rest) =
          List.range' c₁ (sizeJ v) ++ List.range' (c₁ + sizeJ v) (sizeEntries rest) := by
        rw [Nat.add_comm (sizeJ v) (sizeEntries rest)]
        exact (List.range'_append_1 c₁ (sizeJ v) (sizeEntries rest)).symm
      rw [hsplit, List.map_append,
        List.zip_append (by simp [depthList_length v]), List.filterMap_append]

theorem levelsOfElems_getD (vs : List JsonValue) :
    ∀ (c₁ lev : Nat), (levelsOfElems vs c₁).getD lev [] =
      (((List.range' c₁ (sizeElems vs)).map mkId).zip (depthListElems vs)).filterMap
        (fun p => if p.2 = lev then some p.1 else none) := by
  match vs with
  | [] =>
      intro c₁ lev
      rw [levelsOfElems, sizeElems, depthListElems]
      simp [List.getD]
  | v :: rest =>
      intro c₁ lev
      rw [levelsOfElems, joinLevels_getD, levelsOf_getD v c₁ lev,
        levelsOfElems_getD rest (c₁ + sizeJ v) lev,
        levelIdsAt, sizeElems, depthListElems]
      have hsplit : List.range' c₁ (sizeJ v + sizeElems rest) =
          List.range' c₁ (sizeJ v) ++ List.range' (c₁ + sizeJ v) (sizeElems rest) := by
        rw [Nat.add_comm (sizeJ v) (sizeElems rest)]
        exact (List.range'_append_1 c₁ (sizeJ v) (sizeElems rest)).symm
      rw [hsplit, List.map_append,
        List.zip_append (by simp [depthList_length v]), List.filterMap_append]
end

/-- C5: on TreeBuilder output, the layered layout equals the
specification layout: the computed node list is the original node list
with each node given the position determined by the spec-side level
structure `levelsOf` (first conjunct); every node receives a position
(second conjunct); level `lev` of the level structure contains exactly the
ids of the nodes whose depth below the root — their breadth-first level —
is `lev`, in left-to-right order (third conjunct); and a node found at
index `idx` of a level of size `len` at depth `lev` is placed at
`x = (idx - len / 2) * 200` and `y = lev * 150` (fourth conjunct, the
content of `applyPos`). -/
theorem layout_correct (d : Bool) (v : JsonValue) :
    (layoutNodes (createTree d v).1 (createTree d v).2 =
      (createTree d v).1.map (applyPos (levelsOf v 0))) ∧
    ((createTree d v).1.all (fun n => (posOf (levelsOf v 0) n.id).isSome)) = true ∧
    (∀ lev, (levelsOf v 0).getD lev [] = levelIdsAt v 0 lev) ∧
    (∀ (L : List (List String)) (n : RFNode) (lev idx len : Nat),
      posOf L n.id = some (lev, idx, len) →
      (applyPos L n).position =
        (((idx : Rat) - (len : Rat) / 2) * 200, (lev : Rat) * 150)) := by
  refine ⟨layout_eq_spec d v, ?_, fun lev => levelsOf_getD v 0 lev, ?_⟩
  · rw [List.all_eq_true]
    intro n hn
    have hidmem : n.id ∈ (createTree d v).1.map (fun n => n.id) :=
      List.mem_map.mpr ⟨n, hn, rfl⟩
    rw [show (createTree d v).1 = (traverse d v none "root" "$" 0).1 from rfl,
      ids_traverse] at hidmem
    obtain ⟨i, hi, hmk⟩ := List.mem_map.mp hidmem
    have hb := List.mem_range'_1.mp hi
    obtain ⟨lev', hlev'⟩ := mem_levelsOf v 0 i (by omega) (by omega)
    rw [← hmk]
    exact posOfAux_isSome_of_mem (mkId i) (levelsOf v 0) lev' 0 hlev'
  · intro L n lev idx len hpos
    unfold applyPos
    rw [hpos]

/-- Witness for the layout theorem: on `{"a": null}`, node 1 sits alone at
level 1 and is placed at `x = (0 - 1/2) * 200`, `y = 1 * 150`. -/
theorem layout_correct_witness :
    (applyPos (levelsOf (JsonValue.obj [("a", JsonValue.prim JPrim.jnull)]) 0)
        (mkNode true 1 (JsonValue.prim JPrim.jnull) "a" "$.a" (some "node-0"))).position =
      ((((0 : Nat) : Rat) - ((1 : Nat) : Rat) / 2) * 200, ((1 : Nat) : Rat) * 150) :=
  (layout_correct true (JsonValue.obj [("a", JsonValue.prim JPrim.jnull)])).2.2.2
    (levelsOf (JsonValue.obj [("a", JsonValue.prim JPrim.jnull)]) 0)
    (mkNode true 1 (JsonValue.prim JPrim.jnull) "a" "$.a" (some "node-0"))
    1 0 1 (by decide)

end JViz
